import Mathlib

/-!
Verification development for the patent/M&A company-name matching pipeline
(步骤1_自动清洗.py, 步骤2_超级字典.py, 步骤3_最终聚合.py, 步骤4A_Compustat匹配.py,
步骤4B_Compustat匹配.py).

The Python sources are shallowly embedded here.  Strings are modelled as
`List Char` (with `String` wrappers at the interfaces); the regular
expressions used by the sources are all of the restricted shape
word-boundary + literal + optional escaped dot + word-boundary, and are
embedded by an explicit left-to-right scanner with the exact semantics of
`re.sub` on that pattern class (non-overlapping matches, scanning resumes
after each replacement, greedy optional dot with backtracking, `\b`
evaluated on the original string).  The character model is ASCII: `\w` is
[A-Za-z0-9_], `str.upper` uppercases ASCII letters, `\s` is ASCII
whitespace.  Pandas cells are modelled by small inductive types with an
explicit null.
-/

namespace PatentMatch

/-- the apostrophe character (ASCII 39), written via `Char.ofNat`. -/
def apoChar : Char := Char.ofNat 39

/-- the backslash character (ASCII 92), written via `Char.ofNat`. -/
def bslChar : Char := Char.ofNat 92

/-- ASCII model of the regex word class `\w` = [A-Za-z0-9_], which is what
the `\b` boundaries in the source's patterns are evaluated against. -/
def isWordChar (c : Char) : Bool :=
  (decide ('A' ≤ c) && decide (c ≤ 'Z')) ||
  (decide ('a' ≤ c) && decide (c ≤ 'z')) ||
  (decide ('0' ≤ c) && decide (c ≤ '9')) ||
  c = '_'

/-- ASCII model of Python's whitespace class (`\s`, `str.strip`):
space, tab, newline, carriage return, vertical tab, form feed. -/
def pySpace (c : Char) : Bool :=
  c = ' ' || c = '\t' || c = '\n' || c = '\x0d' || c = '\x0b' || c = '\x0c'

/-- ASCII model of `str.upper` applied characterwise. -/
def pyUpper (c : Char) : Char :=
  if decide ('a' ≤ c) && decide (c ≤ 'z') then Char.toUpper c else c

/-- Python `str.strip()`: drop whitespace from both ends. -/
def pyStrip (s : List Char) : List Char :=
  ((s.dropWhile pySpace).reverse.dropWhile pySpace).reverse

/-- Python `str.replace(a, r)` for a single-character needle `a`. -/
def pyReplace (a : Char) (r : List Char) (s : List Char) : List Char :=
  (s.map fun c => if c = a then r else [c]).flatten

/-- Does `p` occur at the very beginning of `s`? (literal comparison). -/
def litMatch : List Char → List Char → Bool
  | [], _ => true
  | _ :: _, [] => false
  | a :: as, b :: bs => a = b && litMatch as bs

/-- One of the source's regex patterns: `\b` + a nonempty literal
(`hd :: tl`) + (optionally, when `optDot` is set, an optional escaped dot)
+ `\b`.  This covers every pattern in the abbreviation table and in the
suffix lists except 步骤4A's mistyped `\bS\.A\\.b` (see `matchWeirdSA`). -/
structure WordPat where
  hd : Char
  tl : List Char
  optDot : Bool
deriving DecidableEq, Repr

/-- the full literal of a pattern. -/
def WordPat.lit (p : WordPat) : List Char := p.hd :: p.tl

/-- the last character of the literal. -/
def WordPat.litLast (p : WordPat) : Char := p.tl.getLastD p.hd

/-- Does the optional-dot branch of the pattern succeed on the remainder
`rest` of the input (the text right after the literal)?  The regexes are
greedy, so `\.?` first tries to consume a dot; the following `\b` then
requires a word character (the dot itself is not a word character). -/
def dotBranchOk (rest : List Char) : Bool :=
  match rest with
  | '.' :: c :: _ => isWordChar c
  | _ => false

/-- The trailing `\b` of a pattern, evaluated after the literal alone
(backtracking branch where `\.?` matches nothing).  `lc` is the last
literal character: if it is a word character the next input character must
not be one (or the input must end); if it is a dot (as in `\bS\.A\.\b`)
the next input character must be a word character. -/
def boundaryAfter (lc : Char) (rest : List Char) : Bool :=
  if isWordChar lc then
    match rest with
    | [] => true
    | c :: _ => !isWordChar c
  else
    match rest with
    | [] => false
    | c :: _ => isWordChar c

/-- Attempt to match pattern `p` at the current position (the leading `\b`
is checked by the scanner).  Returns the number of characters consumed and
whether the last consumed character is a word character. -/
def matchLen (p : WordPat) (s : List Char) : Option (Nat × Bool) :=
  if litMatch p.lit s then
    if p.optDot && dotBranchOk (s.drop p.lit.length) then
      some (p.lit.length + 1, false)
    else if boundaryAfter p.litLast (s.drop p.lit.length) then
      some (p.lit.length, isWordChar p.litLast)
    else none
  else none

/-- 步骤4A's mistyped suffix regex `\bS\.A\\.b` (with IGNORECASE): `\b`,
literal `S`, dot, `A`, a literal backslash, any character except newline,
then the letter `b`/`B`, with no trailing boundary. -/
def matchWeirdSA (s : List Char) : Option (Nat × Bool) :=
  match s with
  | a :: b :: c :: d :: e :: f :: _ =>
    if pyUpper a = 'S' && b = '.' && pyUpper c = 'A' && d = bslChar &&
       !(e = '\n') && pyUpper f = 'B' then
      some (6, isWordChar f)
    else none
  | _ => none

/-- The generic `re.sub` scanner for the pattern class above: scan left to
right; `prevW` records whether the previous character is a word character
(so the leading `\b` holds exactly when `prevW` is false and the literal's
leading word character matches); on a match emit `repl` and resume right
after the consumed text.  `fuel` is a structural-termination device; it is
always called with `fuel ≥ s.length`, which suffices because every step
consumes at least one character. -/
def subScanG (m : List Char → Option (Nat × Bool)) (repl : List Char) :
    Nat → Bool → List Char → List Char
  | 0, _, s => s
  | _ + 1, _, [] => []
  | fuel + 1, prevW, c :: s =>
    if prevW then
      c :: subScanG m repl fuel (isWordChar c) s
    else
      match m (c :: s) with
      | some (n, lw) => repl ++ subScanG m repl fuel lw ((c :: s).drop n)
      | none => c :: subScanG m repl fuel (isWordChar c) s

/-- `re.sub(pattern, repl, s)` for a `WordPat` pattern. -/
def reSub (p : WordPat) (repl : List Char) (s : List Char) : List Char :=
  subScanG (matchLen p) repl s.length false s

/-- `re.sub(r'\bS\.A\\.b', '', s, flags=re.IGNORECASE)` (步骤4A only). -/
def reSubWeird (s : List Char) : List Char :=
  subScanG matchWeirdSA [] s.length false s

/-- `re.sub(r'[^A-Z0-9\s]', ' ', s)`: keep capital letters, digits and
whitespace, replace everything else by a space. -/
def punctToSpace (s : List Char) : List Char :=
  s.map fun c =>
    if (decide ('A' ≤ c) && decide (c ≤ 'Z')) ||
       (decide ('0' ≤ c) && decide (c ≤ '9')) || pySpace c
    then c else ' '

/-- `re.sub(r'\s+', ' ', s)`: collapse every maximal whitespace run into a
single space.  The flag records whether the previous input character was
whitespace (in which case further whitespace is dropped). -/
def collapseWs : Bool → List Char → List Char
  | _, [] => []
  | prevSp, c :: s =>
    if pySpace c then
      if prevSp then collapseWs true s else ' ' :: collapseWs true s
    else c :: collapseWs false s

/-- the abbreviation-expansion table of both 步骤1 and 步骤4A, in source
order; each entry is a plain `\bWORD\b` pattern with its replacement. -/
def ABBREVS : List (WordPat × List Char) :=
  [(⟨'I', ['N', 'T', 'L'], false⟩, ['I', 'N', 'T', 'E', 'R', 'N', 'A', 'T', 'I', 'O', 'N', 'A', 'L']),
   (⟨'N', ['A', 'T', 'L'], false⟩, ['N', 'A', 'T', 'I', 'O', 'N', 'A', 'L']),
   (⟨'C', ['O', 'R', 'P'], false⟩, ['C', 'O', 'R', 'P', 'O', 'R', 'A', 'T', 'I', 'O', 'N']),
   (⟨'I', ['N', 'C'], false⟩, ['I', 'N', 'C', 'O', 'R', 'P', 'O', 'R', 'A', 'T', 'E', 'D']),
   (⟨'M', ['F', 'G'], false⟩, ['M', 'A', 'N', 'U', 'F', 'A', 'C', 'T', 'U', 'R', 'I', 'N', 'G']),
   (⟨'T', ['E', 'C', 'H'], false⟩, ['T', 'E', 'C', 'H', 'N', 'O', 'L', 'O', 'G', 'Y']),
   (⟨'S', ['Y', 'S'], false⟩, ['S', 'Y', 'S', 'T', 'E', 'M', 'S'])]

/-- apply the abbreviation substitutions in order. -/
def applyAbbrevs (s : List Char) : List Char :=
  ABBREVS.foldl (fun acc pr => reSub pr.1 pr.2 acc) s

/-- the suffix patterns shared by 步骤1 and 步骤4A that come before the
`S.A.` pattern, in source order: INCORPORATED, CORPORATION, COMPANY,
LIMITED, GROUP, CORP., INC., LTD., CO., L.L.C., PLC., LLC. -/
def SUFFIXES_A : List WordPat :=
  [⟨'I', ['N', 'C', 'O', 'R', 'P', 'O', 'R', 'A', 'T', 'E', 'D'], false⟩,
   ⟨'C', ['O', 'R', 'P', 'O', 'R', 'A', 'T', 'I', 'O', 'N'], false⟩,
   ⟨'C', ['O', 'M', 'P', 'A', 'N', 'Y'], false⟩,
   ⟨'L', ['I', 'M', 'I', 'T', 'E', 'D'], false⟩,
   ⟨'G', ['R', 'O', 'U', 'P'], false⟩,
   ⟨'C', ['O', 'R', 'P'], true⟩,
   ⟨'I', ['N', 'C'], true⟩,
   ⟨'L', ['T', 'D'], true⟩,
   ⟨'C', ['O'], true⟩,
   ⟨'L', ['.', 'L', '.', 'C'], true⟩,
   ⟨'P', ['L', 'C'], true⟩,
   ⟨'L', ['L', 'C'], false⟩]

/-- the suffix patterns shared by 步骤1 and 步骤4A that come after the
`S.A.` pattern, in source order: NV, GMBH, SA, AG, KK. -/
def SUFFIXES_B : List WordPat :=
  [⟨'N', ['V'], false⟩,
   ⟨'G', ['M', 'B', 'H'], false⟩,
   ⟨'S', ['A'], false⟩,
   ⟨'A', ['G'], false⟩,
   ⟨'K', ['K'], false⟩]

/-- 步骤1's correctly written S.A. pattern `\bS\.A\.\b`. -/
def pSA : WordPat := ⟨'S', ['.', 'A', '.'], false⟩

/-- apply a list of suffix patterns as empty-replacement substitutions. -/
def applySuffixes (ps : List WordPat) (s : List Char) : List Char :=
  ps.foldl (fun acc p => reSub p [] acc) s

/-- the suffix-removal stage of 步骤1's `clean_company_name`
(lines 80-93). -/
def suffixStage1 (s : List Char) : List Char :=
  applySuffixes SUFFIXES_B (reSub pSA [] (applySuffixes SUFFIXES_A s))

/-- the suffix-removal stage of 步骤4A's `clean_company_name`
(lines 77-87); identical except that the `S.A.` pattern is the mistyped
`\bS\.A\\.b`. -/
def suffixStage4A (s : List Char) : List Char :=
  applySuffixes SUFFIXES_B (reSubWeird (applySuffixes SUFFIXES_A s))

/-- the string pipeline of 步骤1's `clean_company_name` (lines 58-101):
uppercase+strip, symbol substitution, abbreviation expansion, suffix
removal, punctuation to spaces, whitespace collapse, final strip. -/
def cleanStr1 (s : List Char) : List Char :=
  let n1 := pyStrip (s.map pyUpper)
  let n2 := pyReplace '&' [' ', 'A', 'N', 'D', ' '] n1
  let n3 := pyReplace '-' [' '] n2
  let n4 := pyReplace apoChar [] n3
  let n5 := applyAbbrevs n4
  let n6 := suffixStage1 n5
  let n7 := punctToSpace n6
  pyStrip (collapseWs false n7)

/-- the string pipeline of 步骤4A's `clean_company_name` (lines 56-95);
identical to 步骤1's except for the suffix stage. -/
def cleanStr4A (s : List Char) : List Char :=
  let n1 := pyStrip (s.map pyUpper)
  let n2 := pyReplace '&' [' ', 'A', 'N', 'D', ' '] n1
  let n3 := pyReplace '-' [' '] n2
  let n4 := pyReplace apoChar [] n3
  let n5 := applyAbbrevs n4
  let n6 := suffixStage4A n5
  let n7 := punctToSpace n6
  pyStrip (collapseWs false n7)

/-- a pandas cell as seen by `clean_company_name`: null (NaN/None), a
non-string value, or a string. -/
inductive PyVal where
  | vNull : PyVal
  | vNonStr : PyVal
  | vStr : String → PyVal
deriving DecidableEq, Repr

/-- 步骤1_自动清洗.py, `clean_company_name` (lines 47-101): null and
non-string inputs yield the empty string, otherwise the cleaning
pipeline runs. -/
def clean_company_name : PyVal → String
  | PyVal.vNull => ""
  | PyVal.vNonStr => ""
  | PyVal.vStr s => String.mk (cleanStr1 s.data)

/-- 步骤4A_Compustat匹配.py, `clean_company_name` (lines 51-95). -/
def clean_company_name_4A : PyVal → String
  | PyVal.vNull => ""
  | PyVal.vNonStr => ""
  | PyVal.vStr s => String.mk (cleanStr4A s.data)

/-! ## 步骤2_超级字典.py — master dictionary building -/

/-- a conflict row as appended by `build_master_dictionary` (lines 116-121):
the raw assignee name, the canonical value kept, the value rejected, and
the batch file it came from. -/
structure ConflictRecord where
  assignee : String
  existingAcquiror : String
  newAcquiror : String
  sourceFile : String
deriving DecidableEq, Repr

/-- the mutable state of the per-file loop of `build_master_dictionary`:
the master dict (a Python dict, i.e. an insertion-ordered association
list with unique keys), the conflict list, and the per-file counters. -/
structure DictState where
  master : List (String × String)
  conflicts : List ConflictRecord
  countNew : Nat
  countDuplicate : Nat
  countConflict : Nat
deriving DecidableEq, Repr

/-- Python dict lookup on the association-list model. -/
def lookupDict (k : String) : List (String × String) → Option String
  | [] => none
  | kv :: rest => if kv.1 = k then some kv.2 else lookupDict k rest

/-- the body of the row loop of `build_master_dictionary` (lines 99-123):
new key → insert; same value → duplicate; different value → record a
conflict and keep the original mapping (first-write-wins). -/
def processPair (filePath : String) (st : DictState) (pr : String × String) : DictState :=
  match lookupDict pr.1 st.master with
  | none =>
    { st with master := st.master ++ [(pr.1, pr.2)], countNew := st.countNew + 1 }
  | some existing =>
    if existing = pr.2 then
      { st with countDuplicate := st.countDuplicate + 1 }
    else
      { st with conflicts := st.conflicts ++ [⟨pr.1, existing, pr.2, filePath⟩],
                countConflict := st.countConflict + 1 }

/-- one entry of `source_stats` (lines 127-133). -/
structure SourceStat where
  file : String
  validRows : Nat
  newMappings : Nat
  duplicates : Nat
  conflictCount : Nat
deriving DecidableEq, Repr

/-- a decision batch: a source file together with its valid, already
stripped (Assignee_Original, Original_Acquiror_Name) rows.  Missing files,
files with missing columns, and rows dropped by the NaN/empty filter
(lines 70-90) never reach the row loop and are not part of a batch. -/
structure DecisionBatch where
  filePath : String
  pairs : List (String × String)
deriving DecidableEq, Repr

/-- the value returned by `build_master_dictionary` (line 138). -/
structure BuildResult where
  masterDict : List (String × String)
  sourceStats : List SourceStat
  conflicts : List ConflictRecord
deriving DecidableEq, Repr

/-- 步骤2_超级字典.py, `build_master_dictionary` (lines 56-138): fold the
row loop over every batch in declaration order, resetting the per-file
counters for each batch and appending one `SourceStat` per batch. -/
def build_master_dictionary (batches : List DecisionBatch) : BuildResult :=
  batches.foldl
    (fun acc b =>
      let st := b.pairs.foldl (processPair b.filePath) ⟨acc.masterDict, acc.conflicts, 0, 0, 0⟩
      ⟨st.master,
       acc.sourceStats ++ [⟨b.filePath, b.pairs.length, st.countNew, st.countDuplicate, st.countConflict⟩],
       st.conflicts⟩)
    ⟨[], [], []⟩

/-- the outputs `save_dictionary` (lines 141-179) can write. -/
inductive SaveOutput where
  | pickleDict (m : List (String × String))
  | excelView (rows : List (String × String))
  | statsFile (stats : List SourceStat)
  | conflictFile (conflicts : List ConflictRecord)
deriving DecidableEq, Repr

/-- insert into a sorted list (kernel-reducible sorting; the sources sort
through pandas, whose output on the keys used here is the same sorted
list). -/
def insertSorted {α : Type} (le : α → α → Bool) (y : α) : List α → List α
  | [] => [y]
  | x :: xs => if le y x then y :: x :: xs else x :: insertSorted le y xs

/-- insertion sort. -/
def sortBy {α : Type} (le : α → α → Bool) (l : List α) : List α :=
  l.foldr (insertSorted le) []

/-- the human-readable Excel view: the dict items sorted by mapped
acquiror name (line 161). -/
def dictView (m : List (String × String)) : List (String × String) :=
  sortBy (fun a b => a.2 ≤ b.2) m

/-- 步骤2_超级字典.py, `save_dictionary` (lines 141-179): an empty master
dict returns failure before any output is written; otherwise the pickle
and the Excel view are always written, the statistics file when stats are
nonempty and the conflict report when conflicts are nonempty. -/
def save_dictionary (masterDict : List (String × String)) (sourceStats : List SourceStat)
    (conflicts : List ConflictRecord) : Bool × List SaveOutput :=
  if masterDict = [] then (false, [])
  else
    (true,
      [SaveOutput.pickleDict masterDict, SaveOutput.excelView (dictView masterDict)] ++
      (if sourceStats ≠ [] then [SaveOutput.statsFile sourceStats] else []) ++
      (if conflicts ≠ [] then [SaveOutput.conflictFile conflicts] else []))

/-! ## 步骤1_自动清洗.py — tiered matching (`perform_matching`, lines 293-368) -/

/-- a row of a tier's summary table: the original assignee name and its
cleaned name. -/
structure MatchRec where
  assignee : String
  cleanName : String
deriving DecidableEq, Repr

/-- the `Match_Type` column: `'Strict'` or `f'Fuzzy (≥threshold)'`. -/
inductive MatchType where
  | strict
  | fuzzy (threshold : Nat)
deriving DecidableEq, Repr

/-- one emitted match candidate row (lines 309-316 and 357-364). -/
structure MatchCand where
  assigneeOriginal : String
  assigneeClean : String
  matchedAcquirorClean : String
  matchType : MatchType
  similarity : Nat
  tier : String
deriving DecidableEq, Repr

/-- one step of the best-candidate scan of rapidfuzz `process.extractOne`:
keep the current best, replacing it only on a strictly higher score (ties
keep the first choice encountered), and accept an initial candidate only
at or above the cutoff. -/
def extractStep (scorer : String → String → Nat) (query : String) (cutoff : Nat)
    (best : Option (String × Nat)) (c : String) : Option (String × Nat) :=
  match best with
  | none => if cutoff ≤ scorer query c then some (c, scorer query c) else none
  | some bv => if bv.2 < scorer query c then some (c, scorer query c) else some bv

/-- rapidfuzz `process.extractOne(query, choices, scorer, score_cutoff)`:
the first highest-scoring choice whose score is at least the cutoff, or
none.  The scorer (`fuzz.token_set_ratio`, an external library function)
is an abstract parameter. -/
def extractOne (scorer : String → String → Nat) (query : String)
    (choices : List String) (cutoff : Nat) : Option (String × Nat) :=
  choices.foldl (extractStep scorer query cutoff) none

/-- the strict branch of the record loop (lines 308-316): exact membership
of the cleaned name in the acquiror set yields a candidate matched to the
record's own cleaned name with similarity 100. -/
def strictCandOf (acqList : List String) (tierName : String) (r : MatchRec) :
    Option MatchCand :=
  if r.cleanName ∈ acqList then
    some ⟨r.assignee, r.cleanName, r.cleanName, MatchType.strict, 100, tierName⟩
  else none

/-- the fuzzy branch (lines 323-364), applied to an unmatched record when
the tier has a fuzzy threshold. -/
def fuzzyCandOf (scorer : String → String → Nat) (acqList : List String)
    (tierName : String) (thr : Option Nat) (r : MatchRec) : Option MatchCand :=
  match thr with
  | none => none
  | some t =>
    (extractOne scorer r.cleanName acqList t).map fun m =>
      ⟨r.assignee, r.cleanName, m.1, MatchType.fuzzy t, m.2, tierName⟩

/-- 步骤1_自动清洗.py, `perform_matching` (lines 293-368): strict pass over
all records, fuzzy pass over the strict leftovers only (parallel and
serial branches compute the same per-record results). -/
def perform_matching (scorer : String → String → Nat) (acqList : List String)
    (records : List MatchRec) (tierName : String) (thr : Option Nat) :
    List MatchCand × List MatchCand :=
  let strictRes := records.filterMap (strictCandOf acqList tierName)
  let unmatched := records.filter fun r => !(decide (r.cleanName ∈ acqList))
  let fuzzyRes := unmatched.filterMap (fuzzyCandOf scorer acqList tierName thr)
  (strictRes, fuzzyRes)

/-- the per-record outcome of a tiered run: strict hit, fuzzy hit, or no
match. -/
inductive TierOutcome where
  | strictHit (c : MatchCand)
  | fuzzyHit (c : MatchCand)
  | noMatch
deriving DecidableEq, Repr

/-- the single outcome assigned to a record by `perform_matching`. -/
def outcomeOf (scorer : String → String → Nat) (acqList : List String)
    (tierName : String) (thr : Option Nat) (r : MatchRec) : TierOutcome :=
  match strictCandOf acqList tierName r with
  | some c => TierOutcome.strictHit c
  | none =>
    match fuzzyCandOf scorer acqList tierName thr r with
    | some c => TierOutcome.fuzzyHit c
    | none => TierOutcome.noMatch

/-! ## inventor-count weight (步骤1 lines 108-120, 步骤3 lines 59-71) -/

/-- a pandas cell for the weight computation: null (NaN), a numeric value,
or a non-null non-numeric value (e.g. an inventor name string). -/
inductive PCell where
  | null
  | num (z : ℤ)
  | other
deriving DecidableEq, Repr

/-- `pd.to_numeric(·, errors='coerce')` on one cell. -/
def toNumericCoerce : PCell → Option ℤ
  | PCell.num z => some z
  | _ => none

/-- `.fillna(0)` after the numeric coercion. -/
def fillnaZero (c : Option ℤ) : ℤ := c.getD 0

/-- `.notna().sum(axis=1)` for one row over the fixed sub-field list. -/
def notnaCount (cs : List PCell) : ℕ :=
  (cs.filter fun c => c ≠ PCell.null).length

/-- one record as seen by the weight computation: the explicit `inventors`
count field plus the ten `inventor_name1..10` sub-fields. -/
structure InventorRow where
  inventors : PCell
  inventorNames : List PCell
deriving DecidableEq, Repr

/-- `calculate_inventor_count_vectorized` (identical in 步骤1 lines
108-120 and 步骤3 lines 59-71): columnwise numeric coercion with zero
fill, columnwise non-null count, and the elementwise maximum. -/
def calculate_inventor_count_vectorized (df : List InventorRow) : List ℤ :=
  let numFromColumn := df.map fun r => fillnaZero (toNumericCoerce r.inventors)
  let numFromNames := df.map fun r => (notnaCount r.inventorNames : ℤ)
  List.zipWith max numFromColumn numFromNames

/-- the per-record weight rule the spec states. -/
def finalInventorCount (r : InventorRow) : ℤ :=
  max (fillnaZero (toNumericCoerce r.inventors)) (notnaCount r.inventorNames : ℤ)

/-! ## 步骤3_最终聚合.py — aggregation and merge -/

/-- `str.strip()` at the `String` interface. -/
def stripStr (s : String) : String := String.mk (pyStrip s.data)

/-- a raw patent row as consumed by 步骤3: the assignee string (non-null
after the loader's dropna), the `application_year` cell, the `inventors`
cell and the ten `inventor_name1..10` sub-fields. -/
structure PatentRow where
  assignee : String
  applicationYear : PCell
  inventors : PCell
  inventorNames : List PCell
deriving DecidableEq, Repr

/-- a row of `df_matched` after mapping, year cleaning and the inventor
count (步骤3 lines 120-159). -/
structure MatchedRow where
  matchedAcquiror : String
  assignee : String
  applicationYear : ℤ
  inventorCount : ℤ
deriving DecidableEq, Repr

/-- the per-row content of `process_patent_data` (步骤3 lines 120-159):
map the stripped assignee through the master dictionary (unmapped rows are
dropped, lines 127 and 135), coerce the year to a number (non-numeric rows
are dropped, lines 139-141), and compute the per-row inventor weight
(`calculate_inventor_count_vectorized` applied columnwise equals this
per-row rule, see `calculate_inventor_count_max_rule`). -/
def resolveRow (masterDict : List (String × String)) (r : PatentRow) : Option MatchedRow :=
  match lookupDict (stripStr r.assignee) masterDict with
  | none => none
  | some acq =>
    match toNumericCoerce r.applicationYear with
    | none => none
    | some y => some ⟨acq, r.assignee, y, finalInventorCount ⟨r.inventors, r.inventorNames⟩⟩

/-- 步骤3_最终聚合.py, `process_patent_data` (lines 120-159). -/
def process_patent_data (rows : List PatentRow) (masterDict : List (String × String)) :
    List MatchedRow :=
  rows.filterMap (resolveRow masterDict)

/-- one row of the pivoted statistics table `df_stats`: the acquiror name
plus one optional-valued cell per `patent_<year>` and
`patent_inventor_<year>` column (a pivot leaves NaN where the
(company, year) pair has no rows). -/
structure StatRow where
  acquirorName : String
  cells : List (String × Option ℤ)
deriving DecidableEq, Repr

/-- one row of the alias table `df_names`: the acquiror name plus one
optional-valued cell per `patent_name`/`patent_name_<i>` column. -/
structure NameRow where
  acquirorName : String
  cells : List (String × Option String)
deriving DecidableEq, Repr

/-- the number of matched rows of one (company, year) group (the `count`
aggregation of line 169). -/
def groupPatentCount (rows : List MatchedRow) (a : String) (y : ℤ) : ℤ :=
  ((rows.filter fun r => r.matchedAcquiror = a && r.applicationYear = y).length : ℤ)

/-- the inventor-count sum of one (company, year) group (the `sum`
aggregation of line 170). -/
def groupInventorSum (rows : List MatchedRow) (a : String) (y : ℤ) : ℤ :=
  ((rows.filter fun r => r.matchedAcquiror = a && r.applicationYear = y).map
    (fun r => r.inventorCount)).sum

/-- does the (company, year) group occur in `df_matched`? -/
def groupPresent (rows : List MatchedRow) (a : String) (y : ℤ) : Bool :=
  rows.any fun r => r.matchedAcquiror = a && r.applicationYear = y

/-- the `patent_<year>`/`patent_inventor_<year>` column list of the pivot
(pandas sorts pivot columns ascending). -/
def statColsOf (years : List ℤ) : List String :=
  (years.map fun y => "patent_" ++ toString y) ++
  (years.map fun y => "patent_inventor_" ++ toString y)

/-- the alias column names `patent_name`, `patent_name_1`, ... (步骤3
line 206). -/
def nameColOf (i : Nat) : String :=
  if i = 0 then "patent_name" else "patent_name_" ++ toString i

/-- the value returned by `aggregate_data` (步骤3 lines 162-214): the
pivoted statistics rows, the alias rows, and the two column schemas. -/
structure AggResult where
  stats : List StatRow
  names : List NameRow
  statColumns : List String
  nameColumns : List String
deriving DecidableEq, Repr

/-- the distinct aliases observed for one canonical entity (the
`list(set(x))` of line 201, in first-occurrence order). -/
def aliasesOf (rows : List MatchedRow) (a : String) : List String :=
  ((rows.filter fun r => r.matchedAcquiror = a).map fun r => r.assignee).dedup

/-- 步骤3_最终聚合.py, `aggregate_data` (lines 162-214): group by
(company, year), pivot into per-year patent-count and inventor-sum
columns (missing combinations stay null), and expand the per-company
alias sets into a fixed-width column list whose width is the largest
alias-set size of the run. -/
def aggregate_data (rows : List MatchedRow) : AggResult :=
  let years := sortBy (fun a b => a ≤ b) (rows.map fun r => r.applicationYear).dedup
  let acqs := (rows.map fun r => r.matchedAcquiror).dedup
  let stats := acqs.map fun a =>
    StatRow.mk a
      ((years.map fun y => ("patent_" ++ toString y,
          if groupPresent rows a y then some (groupPatentCount rows a y) else none)) ++
       (years.map fun y => ("patent_inventor_" ++ toString y,
          if groupPresent rows a y then some (groupInventorSum rows a y) else none)))
  let maxLen := (acqs.map fun a => (aliasesOf rows a).length).foldr max 0
  let names := acqs.map fun a =>
    NameRow.mk a ((List.range maxLen).map fun i => (nameColOf i, (aliasesOf rows a).get? i))
  ⟨stats, names, statColsOf years, (List.range maxLen).map nameColOf⟩

/-- a cell of the final merged table: null, an integer, or a string. -/
inductive MCell where
  | mNull
  | mInt (z : ℤ)
  | mStr (s : String)
deriving DecidableEq, Repr

/-- a row of the main table `df_main`/`df_final`: the merge key
`acquiror_name` plus the remaining columns as (column name, cell) pairs. -/
structure MainRow where
  acquirorName : String
  cells : List (String × MCell)
deriving DecidableEq, Repr

/-- Python `s.startswith(p)` on the embedded strings. -/
def strStarts (p s : String) : Bool := litMatch p.data s.data

/-- Does `p` occur as a contiguous subsequence of `s`? -/
def containsSeq (p : List Char) : List Char → Bool
  | [] => litMatch p []
  | c :: t => litMatch p (c :: t) || containsSeq p t

/-- Python `p in s` (substring test). -/
def strContains (s p : String) : Bool := containsSeq p.data s.data

/-- the column predicate of the drop step (步骤3 lines 223-224):
previously computed columns starting with `patent_` or
`patent_inventor_`. -/
def isOldStatCol (c : String) : Bool :=
  strStarts "patent_" c || strStarts "patent_inventor_" c

/-- 步骤3 lines 222-227: drop every previously computed metric/alias
column from the main table before merging. -/
def dropOldStatCols (df : List MainRow) : List MainRow :=
  df.map fun r => ⟨r.acquirorName, r.cells.filter fun cell => !isOldStatCol cell.1⟩

/-- an optional integer as a merged cell (NaN for a missing value). -/
def zCell : Option ℤ → MCell
  | some z => MCell.mInt z
  | none => MCell.mNull

/-- an optional string as a merged cell. -/
def sCell : Option String → MCell
  | some s => MCell.mStr s
  | none => MCell.mNull

/-- `pd.merge(left, right, on='acquiror_name', how='left')`: every left
row is kept in order; rows with no right match get null cells for the
right schema `cols`; rows with right matches are repeated once per
matching right row.  `key` and `cellsOf` project a right row to its merge
key and its appended cells. -/
def leftMergeBy {ρ : Type} (key : ρ → String) (cellsOf : ρ → List (String × MCell))
    (df : List MainRow) (cols : List String) (right : List ρ) : List MainRow :=
  df.flatMap fun r =>
    match right.filter fun s => key s = r.acquirorName with
    | [] => [⟨r.acquirorName, r.cells ++ cols.map fun c => (c, MCell.mNull)⟩]
    | ms => ms.map fun s => ⟨r.acquirorName, r.cells ++ cellsOf s⟩

/-- the appended cells of one left row under `leftMergeBy` when the right
keys are unique. -/
def mergedCellsFor {ρ : Type} (key : ρ → String) (cellsOf : ρ → List (String × MCell))
    (cols : List String) (right : List ρ) (nm : String) : List (String × MCell) :=
  match right.filter fun s => key s = nm with
  | [] => cols.map fun c => (c, MCell.mNull)
  | s :: _ => cellsOf s

/-- the cells a statistics row contributes to the merged table. -/
def statRowCells (s : StatRow) : List (String × MCell) :=
  s.cells.map fun cell => (cell.1, zCell cell.2)

/-- the cells an alias row contributes to the merged table. -/
def nameRowCells (n : NameRow) : List (String × MCell) :=
  n.cells.map fun cell => (cell.1, sCell cell.2)

/-- `pd.merge(df, stats, on='acquiror_name', how='left')` (步骤3
line 231). -/
def leftMergeStats (df : List MainRow) (cols : List String) (stats : List StatRow) :
    List MainRow :=
  leftMergeBy (fun s => s.acquirorName) statRowCells df cols stats

/-- `pd.merge(df, names, on='acquiror_name', how='left')` (步骤3
line 235). -/
def leftMergeNames (df : List MainRow) (cols : List String) (names : List NameRow) :
    List MainRow :=
  leftMergeBy (fun n => n.acquirorName) nameRowCells df cols names

/-- the fill predicate of 步骤3 lines 238-240: metric columns are those
starting with `patent_`/`patent_inventor_` whose name does not contain
the substring `name`. -/
def isFillCol (c : String) : Bool :=
  (strStarts "patent_" c || strStarts "patent_inventor_" c) && !strContains c "name"

/-- `fillna(0)` on one metric cell (followed by `astype(int)`; the metric
cells are already integers in the model). -/
def fillCell : MCell → MCell
  | MCell.mNull => MCell.mInt 0
  | x => x

/-- 步骤3 line 241: zero-fill the metric columns. -/
def fillnaStatCols (df : List MainRow) : List MainRow :=
  df.map fun r =>
    ⟨r.acquirorName, r.cells.map fun cell =>
      if isFillCol cell.1 then (cell.1, fillCell cell.2) else cell⟩

/-- 步骤3_最终聚合.py, `merge_to_final_outcome` (lines 217-249): drop the
old metric/alias columns, left-merge the statistics, left-merge the
aliases, and zero-fill the metric columns.  The two schemas are those
computed by `aggregate_data`. -/
def merge_to_final_outcome (dfMain : List MainRow) (stats : List StatRow)
    (names : List NameRow) (statColumns nameColumns : List String) : List MainRow :=
  fillnaStatCols
    (leftMergeNames (leftMergeStats (dropOldStatCols dfMain) statColumns stats)
      nameColumns names)

/-! ## 步骤4B_Compustat匹配.py — identifier fill -/

/-- the identifier bundle held for one verified acquiror (步骤4B lines
136-141); each field may itself be null when the Compustat merge found
no identifiers. -/
structure IdRec where
  gvkey : MCell
  cusip : MCell
  cik : MCell
  compustatName : MCell
deriving DecidableEq, Repr

/-- a row of the 步骤4B main table: the acquiror name, the four
identifier columns (created as null when missing, lines 147-149), and all
remaining columns, untouched by the fill loop. -/
structure MainRow4B where
  acquirorName : String
  gvkey : MCell
  cusip : MCell
  cik : MCell
  compustatName : MCell
  otherCells : List (String × MCell)
deriving DecidableEq, Repr

/-- Python dict lookup in the `acquiror_to_ids` mapping. -/
def lookupIds (k : String) : List (String × IdRec) → Option IdRec
  | [] => none
  | kv :: rest => if kv.1 = k then some kv.2 else lookupIds k rest

/-- Python dict assignment `d[k] = v` (overwrite or append). -/
def dictInsert (m : List (String × IdRec)) (k : String) (v : IdRec) :
    List (String × IdRec) :=
  if (lookupIds k m).isSome then m.map fun p => if p.1 = k then (k, v) else p
  else m ++ [(k, v)]

/-- the `acquiror_to_ids` dict built from `df_verify_with_ids` (步骤4B
lines 133-141). -/
def buildAcquirorToIds (rows : List (String × IdRec)) : List (String × IdRec) :=
  rows.foldl (fun m r => dictInsert m r.1 r.2) []

/-- `pd.isna` on a merged cell. -/
def isnaM (c : MCell) : Bool := c = MCell.mNull

/-- the body of the fill loop of 步骤4B `main` (lines 152-164): rows whose
acquiror name is not a key of the verified mapping are left unchanged;
otherwise each of the four identifier cells is overwritten only when it is
null. -/
def fillRow4B (dict : List (String × IdRec)) (r : MainRow4B) : MainRow4B :=
  match lookupIds r.acquirorName dict with
  | none => r
  | some ids =>
    { r with
      gvkey := if isnaM r.gvkey then ids.gvkey else r.gvkey,
      cusip := if isnaM r.cusip then ids.cusip else r.cusip,
      cik := if isnaM r.cik then ids.cik else r.cik,
      compustatName := if isnaM r.compustatName then ids.compustatName else r.compustatName }

/-- the whole fill step of 步骤4B (lines 143-166): row-by-row fill over
the copied main table, adding and removing no rows. -/
def step4B_fill (dict : List (String × IdRec)) (rows : List MainRow4B) : List MainRow4B :=
  rows.map (fillRow4B dict)

/-! ## helper lemmas -/

theorem zipWith_max_map {α : Type} (l : List α) (f g : α → ℤ) :
    List.zipWith max (l.map f) (l.map g) = l.map fun x => max (f x) (g x) := by
  induction l with
  | nil => rfl
  | cons a t ih => simp [ih]

theorem foldl_preserves {α β : Type} (f : β → α → β) (P : β → Prop)
    (hstep : ∀ b a, P b → P (f b a)) :
    ∀ (l : List α) (init : β), P init → P (l.foldl f init) := by
  intro l
  induction l with
  | nil => intro init h; exact h
  | cons a t ih => intro init h; exact ih (f init a) (hstep init a h)

theorem extractOne_score_bounds (scorer : String → String → Nat) (query : String)
    (choices : List String) (cutoff : Nat) (hs : ∀ a b, scorer a b ≤ 100)
    (m : String) (sc : Nat) (h : extractOne scorer query choices cutoff = some (m, sc)) :
    cutoff ≤ sc ∧ sc ≤ 100 := by
  have base : ∀ m sc, (none : Option (String × Nat)) = some (m, sc) →
      cutoff ≤ sc ∧ sc ≤ 100 := by
    intro _ _ h0
    cases h0
  have step : ∀ (b : Option (String × Nat)) (a : String),
      (∀ m sc, b = some (m, sc) → cutoff ≤ sc ∧ sc ≤ 100) →
      ∀ m sc, extractStep scorer query cutoff b a = some (m, sc) →
        cutoff ≤ sc ∧ sc ≤ 100 := by
    intro b a hb m0 sc0 h0
    cases b with
    | none =>
      simp only [extractStep] at h0
      split at h0
      · rename_i hcut
        simp only [Option.some.injEq, Prod.mk.injEq] at h0
        obtain ⟨h1, h2⟩ := h0
        subst h2
        exact ⟨hcut, hs query a⟩
      · cases h0
    | some bv =>
      simp only [extractStep] at h0
      split at h0
      · rename_i hlt
        simp only [Option.some.injEq, Prod.mk.injEq] at h0
        obtain ⟨h1, h2⟩ := h0
        subst h2
        have := hb bv.1 bv.2 (by simp)
        exact ⟨le_trans this.1 (le_of_lt hlt), hs query a⟩
      · simp only [Option.some.injEq] at h0
        subst h0
        exact hb m0 sc0 (by simp)
  exact foldl_preserves (extractStep scorer query cutoff)
    (fun o => ∀ m sc, o = some (m, sc) → cutoff ≤ sc ∧ sc ≤ 100)
    step choices none base m sc h

theorem filterMap_filter_not_mem {α β : Type}
    (l : List α) (p : α → Bool) (f : α → Option β) :
    (l.filter p).filterMap f = l.filterMap fun x => if p x then f x else none := by
  induction l with
  | nil => rfl
  | cons a t ih =>
    by_cases h : p a
    · simp [List.filter_cons, List.filterMap_cons, h, ih]
    · simp [List.filter_cons, List.filterMap_cons, h, ih]

/-! ## claim theorems for 步骤1/步骤2 building blocks -/

/-- C9: normalization is total and never fails: every `PyVal` yields a
string; null and non-string inputs yield the empty string, and
`normalize(None) == normalize("") == ""`. -/
theorem clean_company_name_total_on_null :
    (∀ v : PyVal, ∃ out : String, clean_company_name v = out) ∧
    clean_company_name PyVal.vNull = "" ∧
    clean_company_name PyVal.vNonStr = "" ∧
    clean_company_name (PyVal.vStr "") = "" ∧
    clean_company_name PyVal.vNull = clean_company_name (PyVal.vStr "") :=
  ⟨fun v => ⟨clean_company_name v, rfl⟩, by decide, by decide, by decide, by decide⟩

/-- C3: the two copies of `clean_company_name` are not the same function:
步骤4A's suffix list contains the mistyped regex `\bS\.A\\.b` where 步骤1
has `\bS\.A\.\b`, so on the input "S.A.B" 步骤1 yields "B" while 步骤4A
yields "S A B".  (步骤4A's own docstring says the function is kept
consistent with 步骤1.) -/
theorem clean_company_name_4A_diverges :
    clean_company_name (PyVal.vStr "S.A.B") = "B" ∧
    clean_company_name_4A (PyVal.vStr "S.A.B") = "S A B" ∧
    clean_company_name (PyVal.vStr "S.A.B") ≠ clean_company_name_4A (PyVal.vStr "S.A.B") := by
  refine ⟨by decide, by decide, by decide⟩

/-- C1: each accepted (raw, canonical) pair updates the master dictionary
by exactly one of three cases — new key: insert and count as new; same
value: no state change except the duplicate counter; different value: keep
the original mapping, discard the new value and append one ConflictRecord
— and the two concrete batch examples from the spec behave as stated. -/
theorem build_master_dictionary_first_write_wins
    (filePath : String) (st : DictState) (raw canon : String) :
    (lookupDict raw st.master = none →
      processPair filePath st (raw, canon) =
        { st with master := st.master ++ [(raw, canon)], countNew := st.countNew + 1 }) ∧
    (lookupDict raw st.master = some canon →
      processPair filePath st (raw, canon) =
        { st with countDuplicate := st.countDuplicate + 1 }) ∧
    (∀ v, lookupDict raw st.master = some v → v ≠ canon →
      processPair filePath st (raw, canon) =
        { st with conflicts := st.conflicts ++ [⟨raw, v, canon, filePath⟩],
                  countConflict := st.countConflict + 1 }) ∧
    build_master_dictionary [⟨"f1", [("A", "X"), ("A", "Y")]⟩] =
      ⟨[("A", "X")], [⟨"f1", 2, 1, 0, 1⟩], [⟨"A", "X", "Y", "f1"⟩]⟩ ∧
    build_master_dictionary [⟨"f1", [("A", "X"), ("A", "X")]⟩] =
      ⟨[("A", "X")], [⟨"f1", 2, 1, 1, 0⟩], []⟩ := by
  refine ⟨?_, ?_, ?_, by decide, by decide⟩
  · intro h
    simp [processPair, h]
  · intro h
    simp [processPair, h]
  · intro v h hne
    simp [processPair, h, hne]

theorem build_master_dictionary_first_write_wins_witness :
    lookupDict "A" ([] : List (String × String)) = none ∧
    processPair "f1" ⟨[], [], 0, 0, 0⟩ ("A", "X") = ⟨[("A", "X")], [], 1, 0, 0⟩ := by
  refine ⟨rfl, ?_⟩
  have h := (build_master_dictionary_first_write_wins "f1" ⟨[], [], 0, 0, 0⟩ "A" "X").1 rfl
  simpa using h

/-- C7: an empty master mapping after processing all batches is fatal:
`save_dictionary` returns failure and writes no output at all (no pickle,
no Excel view, no statistics file, no conflict report). -/
theorem save_dictionary_empty_fatal
    (sourceStats : List SourceStat) (conflicts : List ConflictRecord) :
    save_dictionary [] sourceStats conflicts = (false, []) := by
  simp [save_dictionary]

/-- C5: the derived per-record weight is the elementwise maximum of the
zero-filled numeric `inventors` field and the non-null count over the ten
inventor-name sub-fields; a record with count field 3 and 5 non-null
sub-fields gets weight 5, one with count field 7 and 2 non-null sub-fields
gets weight 7. -/
theorem calculate_inventor_count_max_rule :
    (∀ df : List InventorRow,
      calculate_inventor_count_vectorized df = df.map finalInventorCount) ∧
    calculate_inventor_count_vectorized
      [⟨PCell.num 3,
        [PCell.other, PCell.other, PCell.other, PCell.other, PCell.other,
         PCell.null, PCell.null, PCell.null, PCell.null, PCell.null]⟩] = [5] ∧
    calculate_inventor_count_vectorized
      [⟨PCell.num 7,
        [PCell.other, PCell.other, PCell.null, PCell.null, PCell.null,
         PCell.null, PCell.null, PCell.null, PCell.null, PCell.null]⟩] = [7] := by
  refine ⟨fun df => ?_, by decide, by decide⟩
  unfold calculate_inventor_count_vectorized finalInventorCount
  exact zipWith_max_map df _ _

/-- C4: in a tiered run every record receives exactly one outcome (strict
hit, fuzzy hit, or no match) with at most one candidate emitted per
record: the strict and fuzzy result lists are exactly the strict/fuzzy
projections of the per-record outcome function; a strict candidate is
matched to the record's own cleaned name with score 100 (in particular a
record whose cleaned name is a canonical name C strict-matches to C with
score 100); a fuzzy candidate's score lies between the tier's threshold
and 100. -/
theorem perform_matching_tier_contract (scorer : String → String → Nat)
    (acqList : List String) (records : List MatchRec) (tierName : String)
    (thr : Option Nat) (hs : ∀ a b, scorer a b ≤ 100) :
    ((perform_matching scorer acqList records tierName thr).1 =
      records.filterMap fun r =>
        match outcomeOf scorer acqList tierName thr r with
        | TierOutcome.strictHit c => some c
        | _ => none) ∧
    ((perform_matching scorer acqList records tierName thr).2 =
      records.filterMap fun r =>
        match outcomeOf scorer acqList tierName thr r with
        | TierOutcome.fuzzyHit c => some c
        | _ => none) ∧
    (∀ c ∈ (perform_matching scorer acqList records tierName thr).1,
      c.matchedAcquirorClean = c.assigneeClean ∧ c.similarity = 100 ∧
      c.assigneeClean ∈ acqList ∧ c.matchType = MatchType.strict) ∧
    (∀ c ∈ (perform_matching scorer acqList records tierName thr).2,
      ∃ t, thr = some t ∧ c.matchType = MatchType.fuzzy t ∧
        t ≤ c.similarity ∧ c.similarity ≤ 100) ∧
    (∀ orig cn, cn ∈ acqList →
      strictCandOf acqList tierName ⟨orig, cn⟩ =
        some ⟨orig, cn, cn, MatchType.strict, 100, tierName⟩) := by
  refine ⟨?_, ?_, ?_, ?_, ?_⟩
  · apply List.filterMap_congr
    intro r _
    unfold outcomeOf
    cases h : strictCandOf acqList tierName r with
    | none => cases h2 : fuzzyCandOf scorer acqList tierName thr r <;> simp
    | some c => simp
  · show (records.filter _).filterMap _ = _
    rw [filterMap_filter_not_mem]
    apply List.filterMap_congr
    intro r _
    unfold outcomeOf strictCandOf
    by_cases h : r.cleanName ∈ acqList
    · simp [h]
    · cases h2 : fuzzyCandOf scorer acqList tierName thr r <;> simp [h, h2]
  · intro c hc
    have := List.mem_filterMap.mp hc
    obtain ⟨r, _, hr⟩ := this
    unfold strictCandOf at hr
    split at hr
    · rename_i hmem
      cases hr
      exact ⟨rfl, rfl, hmem, rfl⟩
    · cases hr
  · intro c hc
    have := List.mem_filterMap.mp hc
    obtain ⟨r, _, hr⟩ := this
    unfold fuzzyCandOf at hr
    cases thr with
    | none => simp at hr
    | some t =>
      simp only [Option.map_eq_some'] at hr
      obtain ⟨m, hm, hc2⟩ := hr
      have hb := extractOne_score_bounds scorer r.cleanName acqList t hs m.1 m.2 (by simpa using hm)
      cases hc2
      exact ⟨t, rfl, rfl, hb.1, hb.2⟩
  · intro orig cn hmem
    simp [strictCandOf, hmem]

/-! ## helper lemmas for the aggregation/merge claims -/

theorem litMatch_append_self (p q : List Char) : litMatch p (p ++ q) = true := by
  induction p with
  | nil => rfl
  | cons a as ih => simp [litMatch, ih]

theorem litMatch_extend (p : List Char) :
    ∀ s t, litMatch p s = true → litMatch p (s ++ t) = true := by
  induction p with
  | nil => intro s t _; rfl
  | cons a as ih =>
    intro s t h
    cases s with
    | nil => simp [litMatch] at h
    | cons b bs =>
      simp only [litMatch, Bool.and_eq_true, decide_eq_true_eq] at h ⊢
      exact ⟨h.1, ih bs t h.2⟩

theorem containsSeq_nil_left (s : List Char) : containsSeq [] s = true := by
  cases s <;> simp [containsSeq, litMatch]

theorem containsSeq_extend (p : List Char) :
    ∀ s t, containsSeq p s = true → containsSeq p (s ++ t) = true := by
  intro s
  induction s with
  | nil =>
    intro t h
    simp only [containsSeq] at h
    cases p with
    | nil => simpa using containsSeq_nil_left t
    | cons a as => simp [litMatch] at h
  | cons c s' ih =>
    intro t h
    simp only [containsSeq, Bool.or_eq_true] at h ⊢
    cases h with
    | inl h => exact Or.inl (litMatch_extend _ _ t h)
    | inr h => exact Or.inr (ih t h)

theorem strStarts_append (p q : String) : strStarts p (p ++ q) = true := by
  unfold strStarts
  rw [String.data_append]
  exact litMatch_append_self _ _

theorem strStarts_extend (p q t : String) (h : strStarts p q = true) :
    strStarts p (q ++ t) = true := by
  unfold strStarts at h ⊢
  rw [String.data_append]
  exact litMatch_extend _ _ _ h

theorem strContains_extend (q t p : String) (h : strContains q p = true) :
    strContains (q ++ t) p = true := by
  unfold strContains at h ⊢
  rw [String.data_append]
  exact containsSeq_extend _ _ _ h

theorem nameColOf_contains_name (i : Nat) : strContains (nameColOf i) "name" = true := by
  cases i with
  | zero => decide
  | succ n =>
    show strContains ("patent_name_" ++ toString (n + 1)) "name" = true
    exact strContains_extend "patent_name_" (toString (n + 1)) "name" (by decide)

theorem nameColOf_isFillCol (i : Nat) : isFillCol (nameColOf i) = false := by
  unfold isFillCol
  rw [nameColOf_contains_name]
  simp

theorem nameColOf_starts (i : Nat) : strStarts "patent_" (nameColOf i) = true := by
  cases i with
  | zero => decide
  | succ n =>
    show strStarts "patent_" ("patent_name_" ++ toString (n + 1)) = true
    exact strStarts_extend "patent_" "patent_name_" (toString (n + 1)) (by decide)

theorem statColsOf_starts (years : List ℤ) (c : String) (h : c ∈ statColsOf years) :
    strStarts "patent_" c = true := by
  unfold statColsOf at h
  rcases List.mem_append.mp h with h | h <;> obtain ⟨y, _, rfl⟩ := List.mem_map.mp h
  · exact strStarts_append "patent_" (toString y)
  · exact strStarts_extend "patent_" "patent_inventor_" (toString y) (by decide)

theorem isFillCol_of_not_old (c : String) (h : isOldStatCol c = false) :
    isFillCol c = false := by
  unfold isOldStatCol at h
  unfold isFillCol
  rw [h]
  rfl

theorem filter_key_cases {α : Type} (key : α → String) :
    ∀ l : List α, (l.map key).Nodup → ∀ k : String,
      (l.filter fun s => key s = k) = [] ∨
      ∃ s, (l.filter fun s => key s = k) = [s] := by
  intro l
  induction l with
  | nil => intro _ k; exact Or.inl rfl
  | cons a t ih =>
    intro hnd k
    simp only [List.map_cons, List.nodup_cons] at hnd
    by_cases h : key a = k
    · right
      refine ⟨a, ?_⟩
      rw [List.filter_cons_of_pos (by simp [h])]
      have hnil : t.filter (fun s => key s = k) = [] := by
        rw [List.filter_eq_nil_iff]
        intro b hb
        simp only [decide_eq_true_eq]
        intro hk
        apply hnd.1
        rw [h, ← hk]
        exact List.mem_map_of_mem key hb
      rw [hnil]
    · rw [List.filter_cons_of_neg (by simp [h])]
      exact ih hnd.2 k

theorem leftMergeBy_eq_map {ρ : Type} (key : ρ → String)
    (cellsOf : ρ → List (String × MCell)) (df : List MainRow) (cols : List String)
    (right : List ρ) (h : (right.map key).Nodup) :
    leftMergeBy key cellsOf df cols right =
      df.map fun r =>
        ⟨r.acquirorName, r.cells ++ mergedCellsFor key cellsOf cols right r.acquirorName⟩ := by
  unfold leftMergeBy
  induction df with
  | nil => rfl
  | cons r t ih =>
    rw [List.flatMap_cons, ih, List.map_cons]
    unfold mergedCellsFor
    rcases filter_key_cases key right h r.acquirorName with hf | ⟨s, hf⟩ <;>
      · rw [hf]
        rfl

theorem aggregate_stats_keys (rows : List MatchedRow) :
    ((aggregate_data rows).stats).map (fun s => s.acquirorName) =
      (rows.map fun r => r.matchedAcquiror).dedup := by
  unfold aggregate_data
  simp only [List.map_map]
  exact List.map_id'' (fun a => rfl) _

theorem aggregate_names_keys (rows : List MatchedRow) :
    ((aggregate_data rows).names).map (fun n => n.acquirorName) =
      (rows.map fun r => r.matchedAcquiror).dedup := by
  unfold aggregate_data
  simp only [List.map_map]
  exact List.map_id'' (fun a => rfl) _

theorem aggregate_stats_keys_nodup (rows : List MatchedRow) :
    (((aggregate_data rows).stats).map fun s => s.acquirorName).Nodup := by
  rw [aggregate_stats_keys]
  exact List.nodup_dedup _

theorem aggregate_names_keys_nodup (rows : List MatchedRow) :
    (((aggregate_data rows).names).map fun n => n.acquirorName).Nodup := by
  rw [aggregate_names_keys]
  exact List.nodup_dedup _

theorem aggregate_stats_mem (rows : List MatchedRow) (s : StatRow)
    (h : s ∈ (aggregate_data rows).stats) :
    (s.cells.map fun cell => cell.1) = (aggregate_data rows).statColumns ∧
    s.acquirorName ∈ (rows.map fun r => r.matchedAcquiror).dedup := by
  simp only [aggregate_data, List.mem_map] at h
  obtain ⟨a, ha, rfl⟩ := h
  constructor
  · simp only [aggregate_data, statColsOf, List.map_map, List.map_append]
    rfl
  · simpa using ha

theorem aggregate_names_mem (rows : List MatchedRow) (n : NameRow)
    (h : n ∈ (aggregate_data rows).names) :
    (∀ cell ∈ n.cells, ∃ i, cell.1 = nameColOf i) ∧
    n.acquirorName ∈ (rows.map fun r => r.matchedAcquiror).dedup := by
  simp only [aggregate_data, List.mem_map] at h
  obtain ⟨a, ha, rfl⟩ := h
  constructor
  · intro cell hcell
    simp only [List.mem_map] at hcell
    obtain ⟨i, _, rfl⟩ := hcell
    exact ⟨i, rfl⟩
  · simpa using ha

theorem aggregate_nameColumns_mem (rows : List MatchedRow) (c : String)
    (h : c ∈ (aggregate_data rows).nameColumns) : ∃ i, c = nameColOf i := by
  simp only [aggregate_data, List.mem_map] at h
  obtain ⟨i, _, rfl⟩ := h
  exact ⟨i, rfl⟩

theorem mergedStatCells_starts (rows : List MatchedRow) (nm : String) (c : String × MCell)
    (hc : c ∈ mergedCellsFor (fun s => s.acquirorName) statRowCells
      (aggregate_data rows).statColumns (aggregate_data rows).stats nm) :
    strStarts "patent_" c.1 = true := by
  unfold mergedCellsFor at hc
  cases hfil : (aggregate_data rows).stats.filter fun s => s.acquirorName = nm with
  | nil =>
    rw [hfil] at hc
    obtain ⟨col, hcol, rfl⟩ := List.mem_map.mp hc
    have : col ∈ statColsOf (sortBy (fun a b => a ≤ b)
        (rows.map fun r => r.applicationYear).dedup) := hcol
    exact statColsOf_starts _ _ this
  | cons s rest =>
    rw [hfil] at hc
    have hsf : s ∈ (aggregate_data rows).stats.filter fun s => s.acquirorName = nm := by
      rw [hfil]
      exact List.mem_cons_self _ _
    have hs : s ∈ (aggregate_data rows).stats := List.mem_of_mem_filter hsf
    unfold statRowCells at hc
    obtain ⟨cell0, hcell0, rfl⟩ := List.mem_map.mp hc
    have hnames := (aggregate_stats_mem rows s hs).1
    have : cell0.1 ∈ (aggregate_data rows).statColumns := by
      rw [← hnames]
      exact List.mem_map_of_mem _ hcell0
    have : cell0.1 ∈ statColsOf (sortBy (fun a b => a ≤ b)
        (rows.map fun r => r.applicationYear).dedup) := this
    exact statColsOf_starts _ _ this

theorem mergedNameCells_names (rows : List MatchedRow) (nm : String) (c : String × MCell)
    (hc : c ∈ mergedCellsFor (fun n => n.acquirorName) nameRowCells
      (aggregate_data rows).nameColumns (aggregate_data rows).names nm) :
    ∃ i, c.1 = nameColOf i := by
  unfold mergedCellsFor at hc
  cases hfil : (aggregate_data rows).names.filter fun n => n.acquirorName = nm with
  | nil =>
    rw [hfil] at hc
    obtain ⟨col, hcol, rfl⟩ := List.mem_map.mp hc
    exact aggregate_nameColumns_mem rows col hcol
  | cons n rest =>
    rw [hfil] at hc
    have hnf : n ∈ (aggregate_data rows).names.filter fun n => n.acquirorName = nm := by
      rw [hfil]
      exact List.mem_cons_self _ _
    have hn : n ∈ (aggregate_data rows).names := List.mem_of_mem_filter hnf
    unfold nameRowCells at hc
    obtain ⟨cell0, hcell0, rfl⟩ := List.mem_map.mp hc
    exact (aggregate_names_mem rows n hn).1 cell0 hcell0

theorem mergedStatCells_unmatched (rows : List MatchedRow) (nm : String)
    (h : ∀ m ∈ rows, m.matchedAcquiror ≠ nm) :
    mergedCellsFor (fun s => s.acquirorName) statRowCells
      (aggregate_data rows).statColumns (aggregate_data rows).stats nm =
    (aggregate_data rows).statColumns.map fun c => (c, MCell.mNull) := by
  unfold mergedCellsFor
  have hnil : (aggregate_data rows).stats.filter (fun s => s.acquirorName = nm) = [] := by
    rw [List.filter_eq_nil_iff]
    intro s hs
    simp only [decide_eq_true_eq]
    intro hk
    have hmem := (aggregate_stats_mem rows s hs).2
    rw [hk, List.mem_dedup] at hmem
    obtain ⟨m, hm, hmk⟩ := List.mem_map.mp hmem
    exact h m hm hmk
  rw [hnil]

/-- the per-row effect of `merge_to_final_outcome` when the right tables
have unique keys (which `aggregate_data` guarantees): drop the old
metric/alias cells, append the merged statistic and alias cells, and
zero-fill the metric cells. -/
def mergeRowF (stats : List StatRow) (names : List NameRow)
    (statColumns nameColumns : List String) (r : MainRow) : MainRow :=
  ⟨r.acquirorName,
    (((r.cells.filter fun cell => !isOldStatCol cell.1) ++
      mergedCellsFor (fun s => s.acquirorName) statRowCells statColumns stats
        r.acquirorName) ++
      mergedCellsFor (fun n => n.acquirorName) nameRowCells nameColumns names
        r.acquirorName).map
      fun cell => if isFillCol cell.1 then (cell.1, fillCell cell.2) else cell⟩

theorem merge_to_final_outcome_eq_map (dfMain : List MainRow) (stats : List StatRow)
    (names : List NameRow) (statColumns nameColumns : List String)
    (hstats : (stats.map fun s => s.acquirorName).Nodup)
    (hnames : (names.map fun n => n.acquirorName).Nodup) :
    merge_to_final_outcome dfMain stats names statColumns nameColumns =
      dfMain.map (mergeRowF stats names statColumns nameColumns) := by
  unfold merge_to_final_outcome leftMergeStats leftMergeNames dropOldStatCols fillnaStatCols
  rw [leftMergeBy_eq_map _ _ _ _ _ hstats, List.map_map,
    leftMergeBy_eq_map _ _ _ _ _ hnames, List.map_map, List.map_map]
  rfl

theorem MainRow.ext_fields (a b : MainRow) (h1 : a.acquirorName = b.acquirorName)
    (h2 : a.cells = b.cells) : a = b := by
  cases a
  cases b
  simp only [MainRow.mk.injEq]
  exact ⟨h1, h2⟩

theorem filter_old_map_fill (l : List (String × MCell)) :
    ((l.map fun cell => if isFillCol cell.1 then (cell.1, fillCell cell.2) else cell).filter
      fun cell => !isOldStatCol cell.1) =
    (l.filter fun cell => !isOldStatCol cell.1).map
      fun cell => if isFillCol cell.1 then (cell.1, fillCell cell.2) else cell := by
  rw [List.filter_map]
  congr 1
  apply List.filter_congr
  intro cell _
  have hfst : (if isFillCol cell.1 then (cell.1, fillCell cell.2) else cell).1 = cell.1 := by
    split <;> rfl
  simp [Function.comp, hfst]

theorem mergeRowF_cells_filter (mrows : List MatchedRow) (r : MainRow) :
    ((mergeRowF (aggregate_data mrows).stats (aggregate_data mrows).names
        (aggregate_data mrows).statColumns (aggregate_data mrows).nameColumns r).cells.filter
      fun cell => !isOldStatCol cell.1) =
    r.cells.filter fun cell => !isOldStatCol cell.1 := by
  show ((((r.cells.filter fun cell => !isOldStatCol cell.1) ++
      mergedCellsFor (fun s => s.acquirorName) statRowCells
        (aggregate_data mrows).statColumns (aggregate_data mrows).stats r.acquirorName) ++
      mergedCellsFor (fun n => n.acquirorName) nameRowCells
        (aggregate_data mrows).nameColumns (aggregate_data mrows).names r.acquirorName).map
      (fun cell => if isFillCol cell.1 then (cell.1, fillCell cell.2) else cell)).filter
      (fun cell => !isOldStatCol cell.1) = _
  rw [filter_old_map_fill, List.filter_append, List.filter_append]
  have hA : ((r.cells.filter fun cell => !isOldStatCol cell.1).filter
      fun cell => !isOldStatCol cell.1) = r.cells.filter fun cell => !isOldStatCol cell.1 := by
    rw [List.filter_filter]
    apply List.filter_congr
    intro cell _
    rw [Bool.and_self]
  have hSC : ((mergedCellsFor (fun s => s.acquirorName) statRowCells
      (aggregate_data mrows).statColumns (aggregate_data mrows).stats r.acquirorName).filter
      fun cell => !isOldStatCol cell.1) = [] := by
    rw [List.filter_eq_nil_iff]
    intro c hc
    have hstart := mergedStatCells_starts mrows r.acquirorName c hc
    simp [isOldStatCol, hstart]
  have hNC : ((mergedCellsFor (fun n => n.acquirorName) nameRowCells
      (aggregate_data mrows).nameColumns (aggregate_data mrows).names r.acquirorName).filter
      fun cell => !isOldStatCol cell.1) = [] := by
    rw [List.filter_eq_nil_iff]
    intro c hc
    obtain ⟨i, hi⟩ := mergedNameCells_names mrows r.acquirorName c hc
    simp [isOldStatCol, hi, nameColOf_starts]
  rw [hA, hSC, hNC, List.append_nil, List.append_nil]
  conv_rhs => rw [← List.map_id (r.cells.filter fun cell => !isOldStatCol cell.1)]
  apply List.map_congr_left
  intro cell hcell
  have hmemf := List.of_mem_filter hcell
  have hold : isOldStatCol cell.1 = false := by simpa using hmemf
  simp [isFillCol_of_not_old _ hold]

theorem mergeRowF_idem (mrows : List MatchedRow) (r : MainRow) :
    mergeRowF (aggregate_data mrows).stats (aggregate_data mrows).names
      (aggregate_data mrows).statColumns (aggregate_data mrows).nameColumns
      (mergeRowF (aggregate_data mrows).stats (aggregate_data mrows).names
        (aggregate_data mrows).statColumns (aggregate_data mrows).nameColumns r) =
    mergeRowF (aggregate_data mrows).stats (aggregate_data mrows).names
      (aggregate_data mrows).statColumns (aggregate_data mrows).nameColumns r := by
  apply MainRow.ext_fields
  · rfl
  · show ((((mergeRowF (aggregate_data mrows).stats (aggregate_data mrows).names
        (aggregate_data mrows).statColumns (aggregate_data mrows).nameColumns r).cells.filter
        fun cell => !isOldStatCol cell.1) ++
        mergedCellsFor (fun s => s.acquirorName) statRowCells
          (aggregate_data mrows).statColumns (aggregate_data mrows).stats _) ++
        mergedCellsFor (fun n => n.acquirorName) nameRowCells
          (aggregate_data mrows).nameColumns (aggregate_data mrows).names _).map
        (fun cell => if isFillCol cell.1 then (cell.1, fillCell cell.2) else cell) = _
    rw [mergeRowF_cells_filter]
    rfl

/-- C6: a record whose stripped raw name is not a key of the master
mapping is excluded from all aggregation by the resolution filter (no
error raised, nothing contributed to any entity), and after the final
left-merge every metric cell (`patent_<year>`/`patent_inventor_<year>`)
of an entity with no matched records equals 0, never null. -/
theorem aggregation_excludes_unmapped_zero_fills
    (masterDict : List (String × String)) (r0 : PatentRow) (rest rows : List PatentRow)
    (dfMain : List MainRow) :
    (lookupDict (stripStr r0.assignee) masterDict = none →
      process_patent_data (r0 :: rest) masterDict = process_patent_data rest masterDict) ∧
    (∀ R ∈ merge_to_final_outcome dfMain
        (aggregate_data (process_patent_data rows masterDict)).stats
        (aggregate_data (process_patent_data rows masterDict)).names
        (aggregate_data (process_patent_data rows masterDict)).statColumns
        (aggregate_data (process_patent_data rows masterDict)).nameColumns,
      (∀ m ∈ process_patent_data rows masterDict, m.matchedAcquiror ≠ R.acquirorName) →
      ∀ cell ∈ R.cells, isFillCol cell.1 = true → cell.2 = MCell.mInt 0) := by
  constructor
  · intro h
    unfold process_patent_data
    rw [List.filterMap_cons]
    unfold resolveRow
    rw [h]
  · intro R hR hunm cell hcell hfill
    rw [merge_to_final_outcome_eq_map _ _ _ _ _
      (aggregate_stats_keys_nodup (process_patent_data rows masterDict))
      (aggregate_names_keys_nodup (process_patent_data rows masterDict))] at hR
    obtain ⟨r, hrdf, rfl⟩ := List.mem_map.mp hR
    simp only [mergeRowF, List.mem_map] at hcell
    obtain ⟨cell0, hc0, rfl⟩ := hcell
    have hfst : (if isFillCol cell0.1 then (cell0.1, fillCell cell0.2) else cell0).1
        = cell0.1 := by
      split <;> rfl
    rw [hfst] at hfill
    rw [if_pos hfill]
    show fillCell cell0.2 = MCell.mInt 0
    rcases List.mem_append.mp hc0 with hc1 | hcN
    · rcases List.mem_append.mp hc1 with hcA | hcS
      · have hmemf := List.of_mem_filter hcA
        have hold : isOldStatCol cell0.1 = false := by simpa using hmemf
        rw [isFillCol_of_not_old _ hold] at hfill
        cases hfill
      · rw [mergedStatCells_unmatched (process_patent_data rows masterDict)
          r.acquirorName (by simpa [mergeRowF] using hunm)] at hcS
        obtain ⟨col, hcol, rfl⟩ := List.mem_map.mp hcS
        rfl
    · obtain ⟨i, hi⟩ := mergedNameCells_names (process_patent_data rows masterDict)
        r.acquirorName cell0 hcN
      rw [hi, nameColOf_isFillCol] at hfill
      cases hfill

theorem aggregation_excludes_unmapped_zero_fills_witness :
    lookupDict (stripStr "A") [("B", "BETA")] = none ∧
    process_patent_data [⟨"A", PCell.num 1993, PCell.null, []⟩] [("B", "BETA")] =
      process_patent_data [] [("B", "BETA")] ∧
    (("patent_1993", MCell.mInt 0) : String × MCell).2 = MCell.mInt 0 := by
  refine ⟨by decide, ?_, ?_⟩
  · exact (aggregation_excludes_unmapped_zero_fills [("B", "BETA")]
      ⟨"A", PCell.num 1993, PCell.null, []⟩ [] [] []).1 (by decide)
  · exact (aggregation_excludes_unmapped_zero_fills [("B", "BETA")]
      ⟨"A", PCell.num 1993, PCell.null, []⟩ []
      [⟨"B", PCell.num 1993, PCell.num 2, []⟩]
      [⟨"ACME", [("deal", MCell.mInt 5)]⟩]).2
      ⟨"ACME", [("deal", MCell.mInt 5), ("patent_1993", MCell.mInt 0),
        ("patent_inventor_1993", MCell.mInt 0), ("patent_name", MCell.mNull)]⟩
      (by decide) (by decide) ("patent_1993", MCell.mInt 0) (by decide) (by decide)

/-- C8: the aggregation-and-merge stage is idempotent: with the statistics
and alias tables of one aggregation run, merging a second time onto the
already merged table yields the identical table, because every column
whose name starts with `patent_`/`patent_inventor_` (metrics and aliases
alike) is dropped before merging; correspondingly the drop step erases
exactly what the merge appended. -/
theorem merge_to_final_outcome_idempotent (mrows : List MatchedRow) (dfMain : List MainRow) :
    (merge_to_final_outcome
        (merge_to_final_outcome dfMain (aggregate_data mrows).stats (aggregate_data mrows).names
          (aggregate_data mrows).statColumns (aggregate_data mrows).nameColumns)
        (aggregate_data mrows).stats (aggregate_data mrows).names
        (aggregate_data mrows).statColumns (aggregate_data mrows).nameColumns =
      merge_to_final_outcome dfMain (aggregate_data mrows).stats (aggregate_data mrows).names
        (aggregate_data mrows).statColumns (aggregate_data mrows).nameColumns) ∧
    dropOldStatCols (merge_to_final_outcome dfMain (aggregate_data mrows).stats
        (aggregate_data mrows).names (aggregate_data mrows).statColumns
        (aggregate_data mrows).nameColumns) =
      dropOldStatCols dfMain := by
  have hs := aggregate_stats_keys_nodup mrows
  have hn := aggregate_names_keys_nodup mrows
  constructor
  · rw [merge_to_final_outcome_eq_map _ _ _ _ _ hs hn,
      merge_to_final_outcome_eq_map _ _ _ _ _ hs hn, List.map_map]
    apply List.map_congr_left
    intro r _
    exact mergeRowF_idem mrows r
  · rw [merge_to_final_outcome_eq_map _ _ _ _ _ hs hn]
    unfold dropOldStatCols
    rw [List.map_map]
    apply List.map_congr_left
    intro r _
    apply MainRow.ext_fields
    · rfl
    · exact mergeRowF_cells_filter mrows r

/-- C10: the 步骤4B fill step only fills empty identifier cells: it adds
and removes no rows, a non-null gvkey/cusip/cik/compustat_name cell is
never overwritten, rows whose acquiror name is absent from the verified
mapping are left entirely unchanged, and the fill never touches the key or
the other columns. -/
theorem step4B_fill_frame (dict : List (String × IdRec)) (rows : List MainRow4B) :
    (step4B_fill dict rows).length = rows.length ∧
    step4B_fill dict rows = rows.map (fillRow4B dict) ∧
    (∀ r : MainRow4B, lookupIds r.acquirorName dict = none → fillRow4B dict r = r) ∧
    (∀ r : MainRow4B, isnaM r.gvkey = false → (fillRow4B dict r).gvkey = r.gvkey) ∧
    (∀ r : MainRow4B, isnaM r.cusip = false → (fillRow4B dict r).cusip = r.cusip) ∧
    (∀ r : MainRow4B, isnaM r.cik = false → (fillRow4B dict r).cik = r.cik) ∧
    (∀ r : MainRow4B, isnaM r.compustatName = false →
      (fillRow4B dict r).compustatName = r.compustatName) ∧
    (∀ r : MainRow4B, (fillRow4B dict r).acquirorName = r.acquirorName ∧
      (fillRow4B dict r).otherCells = r.otherCells) := by
  refine ⟨by simp [step4B_fill], rfl, ?_, ?_, ?_, ?_, ?_, ?_⟩
  · intro r h
    simp [fillRow4B, h]
  · intro r h
    unfold fillRow4B
    cases lookupIds r.acquirorName dict <;> simp [h]
  · intro r h
    unfold fillRow4B
    cases lookupIds r.acquirorName dict <;> simp [h]
  · intro r h
    unfold fillRow4B
    cases lookupIds r.acquirorName dict <;> simp [h]
  · intro r h
    unfold fillRow4B
    cases lookupIds r.acquirorName dict <;> simp [h]
  · intro r
    unfold fillRow4B
    cases lookupIds r.acquirorName dict <;> simp

theorem step4B_fill_frame_witness :
    isnaM (MCell.mStr "1234") = false ∧
    (fillRow4B [("ACME", ⟨MCell.mStr "9", MCell.mNull, MCell.mNull, MCell.mStr "ACME CO"⟩)]
      ⟨"ACME", MCell.mStr "1234", MCell.mNull, MCell.mNull, MCell.mNull,
        [("deal", MCell.mInt 1)]⟩).gvkey = MCell.mStr "1234" := by
  refine ⟨by decide, ?_⟩
  exact (step4B_fill_frame
    [("ACME", ⟨MCell.mStr "9", MCell.mNull, MCell.mNull, MCell.mStr "ACME CO"⟩)] []).2.2.2.1
    ⟨"ACME", MCell.mStr "1234", MCell.mNull, MCell.mNull, MCell.mNull,
      [("deal", MCell.mInt 1)]⟩ (by decide)

/-! ## word-run analysis of the cleaning pipeline

The idempotence question for `clean_company_name` turns on which maximal
word-character runs ("words") a string has: the `\b`-delimited
substitutions see exactly these runs.  `words` computes the list of
maximal word-character runs of a string. -/

/-- accumulator-based splitting of a string into maximal word runs; `acc`
holds the (reversed) currently open run. -/
def wordsAux : List Char → List Char → List (List Char)
  | acc, [] => if acc = [] then [] else [acc.reverse]
  | acc, c :: s =>
    if isWordChar c then wordsAux (c :: acc) s
    else if acc = [] then wordsAux [] s else acc.reverse :: wordsAux [] s

/-- the maximal word-character runs of a string, in order. -/
def words (s : List Char) : List (List Char) := wordsAux [] s

/-- is the first character (if any) a non-word character? -/
def headNW : List Char → Bool
  | [] => true
  | c :: _ => !isWordChar c

/-- is the last character (if any) a non-word character? -/
def lastNW : List Char → Bool
  | [] => true
  | [c] => !isWordChar c
  | _ :: c :: s => lastNW (c :: s)

theorem wordsAux_nil (acc : List Char) :
    wordsAux acc [] = if acc = [] then [] else [acc.reverse] := rfl

theorem wordsAux_cons (acc : List Char) (c : Char) (s : List Char) :
    wordsAux acc (c :: s) =
      if isWordChar c then wordsAux (c :: acc) s
      else if acc = [] then wordsAux [] s else acc.reverse :: wordsAux [] s := rfl

theorem words_cons_nonword (c : Char) (s : List Char) (h : isWordChar c = false) :
    words (c :: s) = words s := by
  unfold words
  rw [wordsAux_cons, if_neg (by simp [h]), if_pos rfl]

theorem wordsAux_run (run : List Char) (hrun : run.all isWordChar = true) :
    ∀ (acc s : List Char), wordsAux acc (run ++ s) = wordsAux (run.reverse ++ acc) s := by
  induction run with
  | nil => intro acc s; simp
  | cons c run' ih =>
    intro acc s
    simp only [List.all_cons, Bool.and_eq_true] at hrun
    rw [List.cons_append, wordsAux_cons, if_pos hrun.1, ih hrun.2]
    simp

theorem wordsAux_close (acc s : List Char) (hacc : acc ≠ []) (hs : headNW s = true) :
    wordsAux acc s = acc.reverse :: wordsAux [] s := by
  cases s with
  | nil => rw [wordsAux_nil, if_neg hacc, wordsAux_nil, if_pos rfl]
  | cons c s' =>
    simp only [headNW, Bool.not_eq_true'] at hs
    rw [wordsAux_cons, if_neg (by simp [hs]), if_neg hacc,
      wordsAux_cons, if_neg (by simp [hs]), if_pos rfl]

theorem words_run_append (run rest : List Char) (hne : run ≠ [])
    (hrun : run.all isWordChar = true) (hrest : headNW rest = true) :
    words (run ++ rest) = run :: words rest := by
  unfold words
  rw [wordsAux_run run hrun [] rest, List.append_nil,
    wordsAux_close _ _ (by simpa using hne) hrest, List.reverse_reverse]

theorem words_all_nonword (s : List Char) (h : ∀ c ∈ s, isWordChar c = false) :
    words s = [] := by
  induction s with
  | nil => rfl
  | cons c s' ih =>
    rw [words_cons_nonword c s' (h c (by simp))]
    exact ih fun c hc => h c (by simp [hc])

theorem wordsAux_split_headNW (b : List Char) (hb : headNW b = true) :
    ∀ (a acc : List Char), wordsAux acc (a ++ b) = wordsAux acc a ++ wordsAux [] b := by
  intro a
  induction a with
  | nil =>
    intro acc
    by_cases hacc : acc = []
    · subst hacc
      simp [wordsAux_nil]
    · rw [List.nil_append, wordsAux_close acc b hacc hb, wordsAux_nil, if_neg hacc,
        List.singleton_append]
  | cons c a' ih =>
    intro acc
    by_cases hc : isWordChar c = true
    · rw [List.cons_append, wordsAux_cons, if_pos hc, wordsAux_cons, if_pos hc]
      exact ih (c :: acc)
    · rw [Bool.not_eq_true] at hc
      by_cases hacc : acc = []
      · subst hacc
        rw [List.cons_append, wordsAux_cons, if_neg (by simp [hc]), if_pos rfl,
          wordsAux_cons, if_neg (by simp [hc]), if_pos rfl]
        exact ih []
      · rw [List.cons_append, wordsAux_cons, if_neg (by simp [hc]), if_neg hacc,
          wordsAux_cons, if_neg (by simp [hc]), if_neg hacc, ih [], List.cons_append]

theorem words_split_headNW (a b : List Char) (hb : headNW b = true) :
    words (a ++ b) = words a ++ words b :=
  wordsAux_split_headNW b hb a []

theorem wordsAux_split_lastNW (a' : List Char) :
    ∀ (c : Char) (b acc : List Char), lastNW (c :: a') = true →
      wordsAux acc ((c :: a') ++ b) = wordsAux acc (c :: a') ++ wordsAux [] b := by
  induction a' with
  | nil =>
    intro c b acc ha
    have hc : isWordChar c = false := by simpa [lastNW] using ha
    by_cases hacc : acc = []
    · subst hacc
      simp [wordsAux_cons, wordsAux_nil, hc]
    · simp [wordsAux_cons, wordsAux_nil, hc, hacc]
  | cons c2 a'' ih =>
    intro c b acc ha
    have ha' : lastNW (c2 :: a'') = true := by simpa [lastNW] using ha
    by_cases hc : isWordChar c = true
    · rw [List.cons_append, wordsAux_cons, if_pos hc, wordsAux_cons acc c (c2 :: a''),
        if_pos hc]
      exact ih c2 b (c :: acc) ha'
    · rw [Bool.not_eq_true] at hc
      by_cases hacc : acc = []
      · rw [List.cons_append, wordsAux_cons, if_neg (by simp [hc]), if_pos hacc,
          wordsAux_cons acc c (c2 :: a''), if_neg (by simp [hc]), if_pos hacc]
        exact ih c2 b [] ha'
      · rw [List.cons_append, wordsAux_cons, if_neg (by simp [hc]), if_neg hacc,
          wordsAux_cons acc c (c2 :: a''), if_neg (by simp [hc]), if_neg hacc,
          ih c2 b [] ha', List.cons_append]

theorem words_split_lastNW (a b : List Char) (ha : lastNW a = true) :
    words (a ++ b) = words a ++ words b := by
  cases a with
  | nil => simp [words, wordsAux]
  | cons c a' => exact wordsAux_split_lastNW a' c b [] ha

theorem words_append_nonword (a t : List Char) (h : ∀ c ∈ t, isWordChar c = false) :
    words (a ++ t) = words a := by
  cases t with
  | nil => simp
  | cons d t' =>
    rw [words_split_headNW a (d :: t') (by simp [headNW, h d])]
    rw [words_all_nonword _ h, List.append_nil]

/-! ### facts about matching a pattern at one position -/

theorem litMatch_iff (a : List Char) : ∀ b, litMatch a b = true ↔ ∃ t, b = a ++ t := by
  induction a with
  | nil => intro b; simp [litMatch]
  | cons x xs ih =>
    intro b
    cases b with
    | nil => simp [litMatch]
    | cons y ys =>
      simp only [litMatch, Bool.and_eq_true, decide_eq_true_eq, ih]
      constructor
      · rintro ⟨rfl, t, rfl⟩
        exact ⟨t, rfl⟩
      · rintro ⟨t, ht⟩
        rw [List.cons_append] at ht
        simp only [List.cons.injEq] at ht
        obtain ⟨rfl, rfl⟩ := ht
        exact ⟨rfl, t, rfl⟩

theorem litMatch_mem (a b : List Char) (h : litMatch a b = true) : ∀ x ∈ a, x ∈ b := by
  obtain ⟨t, rfl⟩ := (litMatch_iff a b).mp h
  intro x hx
  exact List.mem_append_left t hx

theorem getLastD_mem_cons (l : List Char) (d : Char) : l.getLastD d ∈ d :: l := by
  induction l generalizing d with
  | nil => simp [List.getLastD]
  | cons x xs ih =>
    rw [List.getLastD_cons]
    rcases List.mem_cons.mp (ih x) with h | h
    · rw [h]
      exact List.mem_cons_of_mem d (List.mem_cons_self x xs)
    · exact List.mem_cons_of_mem d (List.mem_cons_of_mem x h)

theorem litLast_word_of_all (p : WordPat) (h : p.lit.all isWordChar = true) :
    isWordChar p.litLast = true := by
  have hmem : p.litLast ∈ p.lit := getLastD_mem_cons p.tl p.hd
  exact List.all_eq_true.mp h _ hmem

theorem dotBranchOk_shape (t : List Char) (h : dotBranchOk t = true) :
    ∃ e r, t = '.' :: e :: r ∧ isWordChar e = true := by
  unfold dotBranchOk at h
  split at h
  · exact ⟨_, _, rfl, h⟩
  · cases h

theorem boundaryAfter_word (lc : Char) (t : List Char) (h : isWordChar lc = true) :
    boundaryAfter lc t = headNW t := by
  unfold boundaryAfter headNW
  rw [if_pos h]

theorem lastNW_append_single (x : List Char) (a : Char) :
    lastNW (x ++ [a]) = !isWordChar a := by
  induction x with
  | nil => rfl
  | cons c x' ih =>
    cases x' with
    | nil => rfl
    | cons e x'' =>
      show lastNW ((e :: x'') ++ [a]) = !isWordChar a
      exact ih

theorem lastNW_lit (p : WordPat) : lastNW p.lit = !isWordChar p.litLast := by
  show lastNW (p.hd :: p.tl) = !isWordChar (p.tl.getLastD p.hd)
  induction p.tl generalizing p with
  | nil => rfl
  | cons x tl' ih =>
    rw [List.getLastD_cons]
    show lastNW (x :: tl') = _
    exact ih ⟨x, tl', p.optDot⟩

theorem matchLen_bounds (p : WordPat) (s : List Char) (n : Nat) (lw : Bool)
    (h : matchLen p s = some (n, lw)) : 1 ≤ n ∧ n ≤ s.length := by
  unfold matchLen at h
  split at h
  · rename_i hlm
    obtain ⟨t, rfl⟩ := (litMatch_iff _ _).mp hlm
    rw [List.drop_left] at h
    split at h
    · rename_i hdot
      simp only [Bool.and_eq_true] at hdot
      obtain ⟨e, r, rfl, _⟩ := dotBranchOk_shape t hdot.2
      simp only [Option.some.injEq, Prod.mk.injEq] at h
      obtain ⟨rfl, _⟩ := h
      simp [WordPat.lit]
    · split at h
      · simp only [Option.some.injEq, Prod.mk.injEq] at h
        obtain ⟨rfl, _⟩ := h
        simp [WordPat.lit]
      · cases h
  · cases h

theorem matchLen_nonword_head (p : WordPat) (hw : isWordChar p.hd = true)
    (c : Char) (s : List Char) (hc : isWordChar c = false) :
    matchLen p (c :: s) = none := by
  unfold matchLen
  rw [if_neg]
  intro hlm
  obtain ⟨t, ht⟩ := (litMatch_iff _ _).mp hlm
  rw [WordPat.lit, List.cons_append] at ht
  simp only [List.cons.injEq] at ht
  rw [ht.1] at hc
  rw [hw] at hc
  cases hc

theorem matchLen_none_of_run_ne (p : WordPat) (hall : p.lit.all isWordChar = true)
    (run rest : List Char) (hrun : run.all isWordChar = true) (hrest : headNW rest = true)
    (hne : run ≠ p.lit) : matchLen p (run ++ rest) = none := by
  unfold matchLen
  split
  · rename_i hlm
    obtain ⟨t, ht⟩ := (litMatch_iff _ _).mp hlm
    rcases List.append_eq_append_iff.mp ht.symm with ⟨a2, ha, hb⟩ | ⟨c2, hc, hd⟩
    · -- run = p.lit ++ a2 with a2 possibly empty
      cases a2 with
      | nil => exact absurd (by simpa using ha) hne
      | cons d c'' =>
        have hd_word : isWordChar d = true := by
          have : d ∈ run := by
            rw [ha]
            exact List.mem_append_right _ (by simp)
          exact List.all_eq_true.mp hrun _ this
        have hdrop : (run ++ rest).drop p.lit.length = d :: (c'' ++ rest) := by
          rw [ha, List.append_assoc, List.drop_left, List.cons_append]
        rw [hdrop]
        rw [if_neg, if_neg]
        · intro hb2
          rw [boundaryAfter_word _ _ (litLast_word_of_all p hall)] at hb2
          simp [headNW, hd_word] at hb2
        · intro hdot
          simp only [Bool.and_eq_true] at hdot
          obtain ⟨e, r, hshape, _⟩ := dotBranchOk_shape _ hdot.2
          simp only [List.cons.injEq] at hshape
          rw [hshape.1] at hd_word
          exact absurd hd_word (by decide)
    · -- p.lit = run ++ c2: run is a proper initial part of the literal
      cases c2 with
      | nil => exact absurd (by simpa using hc.symm) hne
      | cons e c2' =>
        have he_word : isWordChar e = true := by
          have : e ∈ p.lit := by
            rw [hc]
            exact List.mem_append_right _ (by simp)
          exact List.all_eq_true.mp hall _ this
        have : rest = e :: (c2' ++ t) := by
          have := ht
          rw [hc, List.append_assoc] at this
          exact List.append_cancel_left this
        rw [this] at hrest
        simp [headNW, he_word] at hrest
  · rfl

theorem matchLen_split (p : WordPat) (s : List Char) (n : Nat) (lw : Bool)
    (h : matchLen p s = some (n, lw)) :
    (lw = true ∧ headNW (s.drop n) = true) ∨ (lw = false ∧ lastNW (s.take n) = true) := by
  unfold matchLen at h
  split at h
  · rename_i hlm
    obtain ⟨t, rfl⟩ := (litMatch_iff _ _).mp hlm
    rw [List.drop_left] at h
    split at h
    · rename_i hdot
      simp only [Bool.and_eq_true] at hdot
      obtain ⟨e, r, rfl, _⟩ := dotBranchOk_shape t hdot.2
      simp only [Option.some.injEq, Prod.mk.injEq] at h
      obtain ⟨rfl, rfl⟩ := h
      right
      refine ⟨rfl, ?_⟩
      have : (p.lit ++ '.' :: e :: r).take (p.lit.length + 1) = p.lit ++ ['.'] := by
        rw [List.take_append]
        rfl
      rw [this, lastNW_append_single]
      rfl
    · rename_i hdot
      split at h
      · rename_i hbd
        simp only [Option.some.injEq, Prod.mk.injEq] at h
        obtain ⟨rfl, rfl⟩ := h
        by_cases hlast : isWordChar p.litLast = true
        · left
          refine ⟨hlast, ?_⟩
          rw [List.drop_left]
          rw [boundaryAfter_word _ _ hlast] at hbd
          exact hbd
        · right
          rw [Bool.not_eq_true] at hlast
          refine ⟨hlast, ?_⟩
          rw [List.take_left, lastNW_lit, hlast]
          rfl
      · cases h
  · cases h

/-! ### facts about the scanner -/

theorem subScanG_zero (m : List Char → Option (Nat × Bool)) (repl : List Char)
    (b : Bool) (s : List Char) : subScanG m repl 0 b s = s := rfl

theorem subScanG_nil (m : List Char → Option (Nat × Bool)) (repl : List Char)
    (fuel : Nat) (b : Bool) : subScanG m repl (fuel + 1) b [] = [] := rfl

theorem subScanG_cons (m : List Char → Option (Nat × Bool)) (repl : List Char)
    (fuel : Nat) (prevW : Bool) (c : Char) (s : List Char) :
    subScanG m repl (fuel + 1) prevW (c :: s) =
      if prevW then c :: subScanG m repl fuel (isWordChar c) s
      else match m (c :: s) with
        | some (n, lw) => repl ++ subScanG m repl fuel lw ((c :: s).drop n)
        | none => c :: subScanG m repl fuel (isWordChar c) s := rfl

theorem subScanG_true_run (m : List Char → Option (Nat × Bool)) (repl : List Char) :
    ∀ (run rest : List Char) (fuel : Nat), run.all isWordChar = true →
      run.length ≤ fuel →
      subScanG m repl fuel true (run ++ rest) =
        run ++ subScanG m repl (fuel - run.length) true rest := by
  intro run
  induction run with
  | nil => intro rest fuel _ _; simp
  | cons c r ih =>
    intro rest fuel hall hlen
    simp only [List.all_cons, Bool.and_eq_true] at hall
    cases fuel with
    | zero => simp only [List.length_cons] at hlen; omega
    | succ f =>
      rw [List.cons_append, subScanG_cons, if_pos rfl, hall.1,
        ih rest f hall.2 (by simp only [List.length_cons] at hlen; omega)]
      have hl : f + 1 - (c :: r).length = f - r.length := by
        have h1 : (c :: r).length = r.length + 1 := rfl
        omega
      rw [hl, List.cons_append]

theorem subScanG_true_eq_false (p : WordPat) (hw : isWordChar p.hd = true)
    (repl : List Char) (fuel : Nat) (rest : List Char) (hrest : headNW rest = true) :
    subScanG (matchLen p) repl fuel true rest =
      subScanG (matchLen p) repl fuel false rest := by
  cases fuel with
  | zero => rfl
  | succ f =>
    cases rest with
    | nil => rfl
    | cons d r =>
      have hd : isWordChar d = false := by simpa [headNW] using hrest
      rw [subScanG_cons, if_pos rfl, subScanG_cons, if_neg (by simp),
        matchLen_nonword_head p hw d r hd]

theorem headNW_subScanG (p : WordPat) (hw : isWordChar p.hd = true) (repl : List Char)
    (fuel : Nat) (b : Bool) (rest : List Char) (hrest : headNW rest = true) :
    headNW (subScanG (matchLen p) repl fuel b rest) = true := by
  cases fuel with
  | zero => exact hrest
  | succ f =>
    cases rest with
    | nil => rfl
    | cons d r =>
      have hd : isWordChar d = false := by simpa [headNW] using hrest
      rw [subScanG_cons]
      cases b with
      | true => simp [headNW, hd]
      | false =>
        rw [if_neg (by simp), matchLen_nonword_head p hw d r hd]
        simp [headNW, hd]

theorem mem_subScanG (m : List Char → Option (Nat × Bool)) (repl : List Char) :
    ∀ (fuel : Nat) (b : Bool) (s : List Char) (c : Char),
      c ∈ subScanG m repl fuel b s → c ∈ s ∨ c ∈ repl := by
  intro fuel
  induction fuel with
  | zero => intro b s c hc; exact Or.inl hc
  | succ f ih =>
    intro b s c hc
    cases s with
    | nil => rw [subScanG_nil] at hc; cases hc
    | cons a s' =>
      rw [subScanG_cons] at hc
      by_cases hb : b = true
      · rw [if_pos hb] at hc
        rcases List.mem_cons.mp hc with h | h
        · exact Or.inl (by simp [h])
        · rcases ih _ _ _ h with h2 | h2
          · exact Or.inl (by simp [h2])
          · exact Or.inr h2
      · rw [if_neg hb] at hc
        split at hc
        · rcases List.mem_append.mp hc with h | h
          · exact Or.inr h
          · rcases ih _ _ _ h with h2 | h2
            · exact Or.inl (List.mem_of_mem_drop h2)
            · exact Or.inr h2
        · rcases List.mem_cons.mp hc with h | h
          · exact Or.inl (by simp [h])
          · rcases ih _ _ _ h with h2 | h2
            · exact Or.inl (by simp [h2])
            · exact Or.inr h2

theorem dropWhile_head_not (p : Char → Bool) :
    ∀ (l : List Char) (c : Char) (t : List Char), l.dropWhile p = c :: t → p c = false := by
  intro l
  induction l with
  | nil => intro c t h; cases h
  | cons a l' ih =>
    intro c t h
    rw [List.dropWhile_cons] at h
    split at h
    · exact ih c t h
    · rename_i ha
      simp only [List.cons.injEq] at h
      rw [← h.1]
      simp only [Bool.not_eq_true] at ha
      exact ha

theorem headNW_dropWhile_word (s : List Char) :
    headNW (s.dropWhile isWordChar) = true := by
  cases hd : s.dropWhile isWordChar with
  | nil => rfl
  | cons c t =>
    simp only [headNW]
    rw [dropWhile_head_not isWordChar s c t hd]
    rfl

theorem subScanG_copy_run (p : WordPat) (hw : isWordChar p.hd = true) (repl : List Char)
    (c : Char) (tw dw : List Char) (fuel : Nat)
    (hc : isWordChar c = true) (htw : tw.all isWordChar = true) (hdw : headNW dw = true)
    (hm : matchLen p (c :: (tw ++ dw)) = none) (hlen : tw.length ≤ fuel) :
    subScanG (matchLen p) repl (fuel + 1) false (c :: (tw ++ dw)) =
      (c :: tw) ++ subScanG (matchLen p) repl (fuel - tw.length) false dw := by
  rw [subScanG_cons, if_neg (by simp), hm]
  show c :: subScanG (matchLen p) repl fuel (isWordChar c) (tw ++ dw) = _
  rw [hc, subScanG_true_run (matchLen p) repl tw dw fuel htw hlen,
    subScanG_true_eq_false p hw repl _ dw hdw]
  rfl

theorem subScanG_match_step (m : List Char → Option (Nat × Bool)) (repl : List Char)
    (fuel : Nat) (s : List Char) (hs : s ≠ []) (n : Nat) (lw : Bool)
    (hm : m s = some (n, lw)) :
    subScanG m repl (fuel + 1) false s = repl ++ subScanG m repl fuel lw (s.drop n) := by
  cases s with
  | nil => exact absurd rfl hs
  | cons c s' => rw [subScanG_cons, if_neg (by simp), hm]

theorem subScanG_skip_nonword (p : WordPat) (hw : isWordChar p.hd = true)
    (repl : List Char) (fuel : Nat) (c : Char) (s' : List Char)
    (hc : isWordChar c = false) :
    subScanG (matchLen p) repl (fuel + 1) false (c :: s') =
      c :: subScanG (matchLen p) repl fuel false s' := by
  rw [subScanG_cons, if_neg (by simp), matchLen_nonword_head p hw c s' hc]
  show c :: subScanG (matchLen p) repl fuel (isWordChar c) s' = _
  rw [hc]

theorem subScanG_id_of_no_match (m : List Char → Option (Nat × Bool)) (repl : List Char) :
    ∀ (fuel : Nat) (b : Bool) (s : List Char),
      (∀ u v : List Char, s = u ++ v → m v = none) →
      subScanG m repl fuel b s = s := by
  intro fuel
  induction fuel with
  | zero => intro b s _; rfl
  | succ f ih =>
    intro b s hsuf
    cases s with
    | nil => rfl
    | cons c s' =>
      have hrec : ∀ u v : List Char, s' = u ++ v → m v = none := fun u v h =>
        hsuf (c :: u) v (by rw [h]; rfl)
      rw [subScanG_cons]
      by_cases hb : b = true
      · rw [if_pos hb, ih _ s' hrec]
      · rw [if_neg hb, hsuf [] (c :: s') rfl, ih _ s' hrec]

theorem matchLen_none_of_missing (p : WordPat) (c0 : Char) (hc0 : c0 ∈ p.lit)
    (t : List Char) (hnot : c0 ∉ t) : matchLen p t = none := by
  unfold matchLen
  rw [if_neg]
  intro hlm
  exact hnot (litMatch_mem _ _ hlm c0 hc0)

theorem reSub_id_of_missing (p : WordPat) (repl : List Char) (s : List Char)
    (c0 : Char) (hc0 : c0 ∈ p.lit) (hs : c0 ∉ s) : reSub p repl s = s := by
  unfold reSub
  exact subScanG_id_of_no_match _ _ _ _ _ fun u v huv =>
    matchLen_none_of_missing p c0 hc0 v fun hv =>
      hs (by rw [huv]; exact List.mem_append_right u hv)

theorem matchLen_at_lit_dot (p : WordPat) (rest : List Char)
    (hdot : (p.optDot && dotBranchOk rest) = true) :
    matchLen p (p.lit ++ rest) = some (p.lit.length + 1, false) := by
  unfold matchLen
  rw [if_pos (litMatch_append_self _ _), List.drop_left, if_pos hdot]

theorem matchLen_at_lit_bd (p : WordPat) (hall : p.lit.all isWordChar = true)
    (rest : List Char) (hrest : headNW rest = true)
    (hnd : (p.optDot && dotBranchOk rest) = false) :
    matchLen p (p.lit ++ rest) = some (p.lit.length, true) := by
  unfold matchLen
  rw [if_pos (litMatch_append_self _ _), List.drop_left,
    if_neg (by rw [hnd]; exact Bool.false_ne_true),
    if_pos (by rw [boundaryAfter_word _ _ (litLast_word_of_all p hall)]; exact hrest),
    litLast_word_of_all p hall]

theorem words_subScanG_sublist (p : WordPat) (hw : isWordChar p.hd = true) :
    ∀ (fuel f : Nat), f ≤ fuel → ∀ s : List Char, s.length ≤ f →
      List.Sublist (words (subScanG (matchLen p) [] f false s)) (words s) := by
  intro fuel
  induction fuel with
  | zero =>
    intro f hf s hs
    have hf0 : f = 0 := Nat.le_zero.mp hf
    subst hf0
    have hs0 : s = [] := List.length_eq_zero.mp (Nat.le_zero.mp hs)
    subst hs0
    exact List.Sublist.refl _
  | succ fuel ih =>
    intro f hf s hs
    by_cases hfe : f = fuel + 1
    · subst hfe
      cases s with
      | nil => rw [subScanG_nil]
      | cons c s' =>
        simp only [List.length_cons] at hs
        cases hm : matchLen p (c :: s') with
        | some v =>
          obtain ⟨n, lw⟩ := v
          rw [subScanG_match_step _ _ fuel _ (by simp) n lw hm, List.nil_append]
          have hb := matchLen_bounds p _ n lw hm
          simp only [List.length_cons] at hb
          have hdl : ((c :: s').drop n).length ≤ fuel := by
            rw [List.length_drop]
            simp only [List.length_cons]
            omega
          rcases matchLen_split p _ n lw hm with ⟨hlw, hhead⟩ | ⟨hlw, hlast⟩
          · subst hlw
            rw [subScanG_true_eq_false p hw [] fuel _ hhead]
            have hsub := ih fuel (le_refl _) _ hdl
            have hsplit : words (c :: s') =
                words ((c :: s').take n) ++ words ((c :: s').drop n) := by
              conv_lhs => rw [← List.take_append_drop n (c :: s')]
              exact words_split_headNW _ _ hhead
            rw [hsplit]
            exact hsub.trans (List.sublist_append_right _ _)
          · subst hlw
            have hsub := ih fuel (le_refl _) _ hdl
            have hsplit : words (c :: s') =
                words ((c :: s').take n) ++ words ((c :: s').drop n) := by
              conv_lhs => rw [← List.take_append_drop n (c :: s')]
              exact words_split_lastNW _ _ hlast
            rw [hsplit]
            exact hsub.trans (List.sublist_append_right _ _)
        | none =>
          by_cases hc : isWordChar c = true
          · obtain ⟨tw, dw, htw, hdw⟩ :
                ∃ tw dw, tw = s'.takeWhile isWordChar ∧ dw = s'.dropWhile isWordChar :=
              ⟨_, _, rfl, rfl⟩
            have hs' : s' = tw ++ dw := by
              rw [htw, hdw, List.takeWhile_append_dropWhile]
            have htwall : tw.all isWordChar = true := by
              rw [htw]
              exact List.all_eq_true.mpr fun x hx => List.mem_takeWhile_imp hx
            have hdwh : headNW dw = true := by
              rw [hdw]; exact headNW_dropWhile_word s'
            have hlen2 : tw.length + dw.length = s'.length := by
              rw [hs', List.length_append]
            have hrall : (c :: tw).all isWordChar = true := by
              simp only [List.all_cons, hc, Bool.true_and]
              exact htwall
            have hm2 : matchLen p (c :: (tw ++ dw)) = none := by rw [← hs']; exact hm
            rw [hs', subScanG_copy_run p hw [] c tw dw fuel hc htwall hdwh hm2 (by omega)]
            have hout : headNW (subScanG (matchLen p) [] (fuel - tw.length) false dw) = true :=
              headNW_subScanG p hw [] _ _ dw hdwh
            rw [← List.cons_append,
              words_run_append (c :: tw) _ (by simp) hrall hout,
              words_run_append (c :: tw) dw (by simp) hrall hdwh]
            exact List.Sublist.cons₂ _ (ih (fuel - tw.length) (by omega) dw (by omega))
          · have hcf : isWordChar c = false := by rwa [Bool.not_eq_true] at hc
            rw [subScanG_skip_nonword p hw [] fuel c s' hcf,
              words_cons_nonword c _ hcf, words_cons_nonword c s' hcf]
            exact ih fuel (le_refl _) s' (by omega)
    · exact ih f (by omega) s hs

theorem words_subScanG_filter (p : WordPat) (hall : p.lit.all isWordChar = true) :
    ∀ (fuel f : Nat), f ≤ fuel → ∀ s : List Char, s.length ≤ f →
      words (subScanG (matchLen p) [] f false s) =
        (words s).filter (fun w => w ≠ p.lit) := by
  have hw : isWordChar p.hd = true :=
    List.all_eq_true.mp hall p.hd (by simp [WordPat.lit])
  intro fuel
  induction fuel with
  | zero =>
    intro f hf s hs
    have hf0 : f = 0 := Nat.le_zero.mp hf
    subst hf0
    have hs0 : s = [] := List.length_eq_zero.mp (Nat.le_zero.mp hs)
    subst hs0
    rfl
  | succ fuel ih =>
    intro f hf s hs
    by_cases hfe : f = fuel + 1
    · subst hfe
      cases s with
      | nil => rfl
      | cons c s' =>
        simp only [List.length_cons] at hs
        by_cases hc : isWordChar c = true
        · obtain ⟨tw, dw, htw, hdw⟩ :
              ∃ tw dw, tw = s'.takeWhile isWordChar ∧ dw = s'.dropWhile isWordChar :=
            ⟨_, _, rfl, rfl⟩
          have hs' : s' = tw ++ dw := by
            rw [htw, hdw, List.takeWhile_append_dropWhile]
          have htwall : tw.all isWordChar = true := by
            rw [htw]
            exact List.all_eq_true.mpr fun x hx => List.mem_takeWhile_imp hx
          have hdwh : headNW dw = true := by
            rw [hdw]; exact headNW_dropWhile_word s'
          have hlen2 : tw.length + dw.length = s'.length := by
            rw [hs', List.length_append]
          have hrall : (c :: tw).all isWordChar = true := by
            simp only [List.all_cons, hc, Bool.true_and]
            exact htwall
          by_cases heq : c :: tw = p.lit
          · by_cases hdot : (p.optDot && dotBranchOk dw) = true
            · have hdot2 := hdot
              simp only [Bool.and_eq_true] at hdot2
              obtain ⟨e, r, hshape, he⟩ := dotBranchOk_shape dw hdot2.2
              have hm : matchLen p (c :: s') = some (p.lit.length + 1, false) := by
                rw [hs', ← List.cons_append, heq]
                exact matchLen_at_lit_dot p dw hdot
              rw [subScanG_match_step _ _ fuel _ (by simp) _ _ hm, List.nil_append]
              have hdrop : (c :: s').drop (p.lit.length + 1) = e :: r := by
                rw [hs', ← List.cons_append, heq, hshape]
                have h2 : p.lit ++ '.' :: e :: r = (p.lit ++ ['.']) ++ e :: r := by simp
                rw [h2]
                have h3 : (p.lit ++ ['.']).length = p.lit.length + 1 := by simp
                rw [← h3, List.drop_left]
              rw [hdrop]
              have hdwlen : dw.length = r.length + 2 := by rw [hshape]; rfl
              rw [ih fuel (le_refl _) (e :: r) (by simp only [List.length_cons]; omega)]
              conv_rhs => rw [hs', ← List.cons_append, heq, hshape]
              rw [words_run_append p.lit _ (by simp [WordPat.lit]) hall (by rfl),
                words_cons_nonword '.' _ (by decide), List.filter_cons]
              simp
            · have hndot : (p.optDot && dotBranchOk dw) = false := by
                rwa [Bool.not_eq_true] at hdot
              have hm : matchLen p (c :: s') = some (p.lit.length, true) := by
                rw [hs', ← List.cons_append, heq]
                exact matchLen_at_lit_bd p hall dw hdwh hndot
              rw [subScanG_match_step _ _ fuel _ (by simp) _ _ hm, List.nil_append]
              have hdrop : (c :: s').drop p.lit.length = dw := by
                rw [hs', ← List.cons_append, heq, List.drop_left]
              rw [hdrop, subScanG_true_eq_false p hw [] fuel dw hdwh,
                ih fuel (le_refl _) dw (by omega)]
              conv_rhs => rw [hs', ← List.cons_append, heq]
              rw [words_run_append p.lit dw (by simp [WordPat.lit]) hall hdwh,
                List.filter_cons]
              simp
          · have hm2 : matchLen p (c :: (tw ++ dw)) = none :=
              matchLen_none_of_run_ne p hall (c :: tw) dw hrall hdwh heq
            rw [hs', subScanG_copy_run p hw [] c tw dw fuel hc htwall hdwh hm2 (by omega)]
            have hout : headNW (subScanG (matchLen p) [] (fuel - tw.length) false dw) = true :=
              headNW_subScanG p hw [] _ _ dw hdwh
            rw [← List.cons_append,
              words_run_append (c :: tw) _ (by simp) hrall hout,
              words_run_append (c :: tw) dw (by simp) hrall hdwh,
              ih (fuel - tw.length) (by omega) dw (by omega),
              List.filter_cons]
            simp [heq]
        · have hcf : isWordChar c = false := by rwa [Bool.not_eq_true] at hc
          rw [subScanG_skip_nonword p hw [] fuel c s' hcf,
            words_cons_nonword c _ hcf, words_cons_nonword c s' hcf]
          exact ih fuel (le_refl _) s' (by omega)
    · exact ih f (by omega) s hs

theorem words_subScanG_map (p : WordPat) (hall : p.lit.all isWordChar = true)
    (hod : p.optDot = false) (repl : List Char) (hre : repl ≠ [])
    (hreall : repl.all isWordChar = true) :
    ∀ (fuel f : Nat), f ≤ fuel → ∀ s : List Char, s.length ≤ f →
      words (subScanG (matchLen p) repl f false s) =
        (words s).map (fun w => if w = p.lit then repl else w) := by
  have hw : isWordChar p.hd = true :=
    List.all_eq_true.mp hall p.hd (by simp [WordPat.lit])
  intro fuel
  induction fuel with
  | zero =>
    intro f hf s hs
    have hf0 : f = 0 := Nat.le_zero.mp hf
    subst hf0
    have hs0 : s = [] := List.length_eq_zero.mp (Nat.le_zero.mp hs)
    subst hs0
    rfl
  | succ fuel ih =>
    intro f hf s hs
    by_cases hfe : f = fuel + 1
    · subst hfe
      cases s with
      | nil => rfl
      | cons c s' =>
        simp only [List.length_cons] at hs
        by_cases hc : isWordChar c = true
        · obtain ⟨tw, dw, htw, hdw⟩ :
              ∃ tw dw, tw = s'.takeWhile isWordChar ∧ dw = s'.dropWhile isWordChar :=
            ⟨_, _, rfl, rfl⟩
          have hs' : s' = tw ++ dw := by
            rw [htw, hdw, List.takeWhile_append_dropWhile]
          have htwall : tw.all isWordChar = true := by
            rw [htw]
            exact List.all_eq_true.mpr fun x hx => List.mem_takeWhile_imp hx
          have hdwh : headNW dw = true := by
            rw [hdw]; exact headNW_dropWhile_word s'
          have hlen2 : tw.length + dw.length = s'.length := by
            rw [hs', List.length_append]
          have hrall : (c :: tw).all isWordChar = true := by
            simp only [List.all_cons, hc, Bool.true_and]
            exact htwall
          by_cases heq : c :: tw = p.lit
          · have hndot : (p.optDot && dotBranchOk dw) = false := by rw [hod]; rfl
            have hm : matchLen p (c :: s') = some (p.lit.length, true) := by
              rw [hs', ← List.cons_append, heq]
              exact matchLen_at_lit_bd p hall dw hdwh hndot
            rw [subScanG_match_step _ _ fuel _ (by simp) _ _ hm]
            have hdrop : (c :: s').drop p.lit.length = dw := by
              rw [hs', ← List.cons_append, heq, List.drop_left]
            rw [hdrop, subScanG_true_eq_false p hw repl fuel dw hdwh,
              words_run_append repl _ hre hreall
                (headNW_subScanG p hw repl fuel false dw hdwh),
              ih fuel (le_refl _) dw (by omega)]
            conv_rhs => rw [hs', ← List.cons_append, heq]
            rw [words_run_append p.lit dw (by simp [WordPat.lit]) hall hdwh,
              List.map_cons]
            simp
          · have hm2 : matchLen p (c :: (tw ++ dw)) = none :=
              matchLen_none_of_run_ne p hall (c :: tw) dw hrall hdwh heq
            rw [hs', subScanG_copy_run p hw repl c tw dw fuel hc htwall hdwh hm2 (by omega)]
            have hout : headNW (subScanG (matchLen p) repl (fuel - tw.length) false dw) = true :=
              headNW_subScanG p hw repl _ _ dw hdwh
            rw [← List.cons_append,
              words_run_append (c :: tw) _ (by simp) hrall hout,
              words_run_append (c :: tw) dw (by simp) hrall hdwh,
              ih (fuel - tw.length) (by omega) dw (by omega),
              List.map_cons]
            simp [heq]
        · have hcf : isWordChar c = false := by rwa [Bool.not_eq_true] at hc
          rw [subScanG_skip_nonword p hw repl fuel c s' hcf,
            words_cons_nonword c _ hcf, words_cons_nonword c s' hcf]
          exact ih fuel (le_refl _) s' (by omega)
    · exact ih f (by omega) s hs

theorem subScanG_id_of_not_mem (p : WordPat) (hall : p.lit.all isWordChar = true)
    (repl : List Char) :
    ∀ (fuel f : Nat), f ≤ fuel → ∀ s : List Char, s.length ≤ f → p.lit ∉ words s →
      subScanG (matchLen p) repl f false s = s := by
  have hw : isWordChar p.hd = true :=
    List.all_eq_true.mp hall p.hd (by simp [WordPat.lit])
  intro fuel
  induction fuel with
  | zero =>
    intro f hf s hs _
    have hf0 : f = 0 := Nat.le_zero.mp hf
    subst hf0
    rfl
  | succ fuel ih =>
    intro f hf s hs habs
    by_cases hfe : f = fuel + 1
    · subst hfe
      cases s with
      | nil => rfl
      | cons c s' =>
        simp only [List.length_cons] at hs
        by_cases hc : isWordChar c = true
        · obtain ⟨tw, dw, htw, hdw⟩ :
              ∃ tw dw, tw = s'.takeWhile isWordChar ∧ dw = s'.dropWhile isWordChar :=
            ⟨_, _, rfl, rfl⟩
          have hs' : s' = tw ++ dw := by
            rw [htw, hdw, List.takeWhile_append_dropWhile]
          have htwall : tw.all isWordChar = true := by
            rw [htw]
            exact List.all_eq_true.mpr fun x hx => List.mem_takeWhile_imp hx
          have hdwh : headNW dw = true := by
            rw [hdw]; exact headNW_dropWhile_word s'
          have hlen2 : tw.length + dw.length = s'.length := by
            rw [hs', List.length_append]
          have hrall : (c :: tw).all isWordChar = true := by
            simp only [List.all_cons, hc, Bool.true_and]
            exact htwall
          have hwords : words (c :: s') = (c :: tw) :: words dw := by
            rw [hs', ← List.cons_append]
            exact words_run_append (c :: tw) dw (by simp) hrall hdwh
          have heq : c :: tw ≠ p.lit := fun he => habs (by rw [hwords, he]; simp)
          have hm2 : matchLen p (c :: (tw ++ dw)) = none :=
            matchLen_none_of_run_ne p hall (c :: tw) dw hrall hdwh heq
          rw [hs', subScanG_copy_run p hw repl c tw dw fuel hc htwall hdwh hm2 (by omega),
            ih (fuel - tw.length) (by omega) dw (by omega)
              (fun hmem => habs (by rw [hwords]; exact List.mem_cons_of_mem _ hmem))]
          rfl
        · have hcf : isWordChar c = false := by rwa [Bool.not_eq_true] at hc
          rw [subScanG_skip_nonword p hw repl fuel c s' hcf,
            ih fuel (le_refl _) s' (by omega)
              (fun hmem => habs (by rw [words_cons_nonword c s' hcf]; exact hmem))]
    · exact ih f (by omega) s hs habs

theorem words_reSub_sublist (p : WordPat) (hw : isWordChar p.hd = true) (s : List Char) :
    List.Sublist (words (reSub p [] s)) (words s) :=
  words_subScanG_sublist p hw s.length s.length (le_refl _) s (le_refl _)

theorem words_reSub_filter (p : WordPat) (hall : p.lit.all isWordChar = true)
    (s : List Char) :
    words (reSub p [] s) = (words s).filter (fun w => w ≠ p.lit) :=
  words_subScanG_filter p hall s.length s.length (le_refl _) s (le_refl _)

theorem words_reSub_map (p : WordPat) (hall : p.lit.all isWordChar = true)
    (hod : p.optDot = false) (repl : List Char) (hre : repl ≠ [])
    (hreall : repl.all isWordChar = true) (s : List Char) :
    words (reSub p repl s) = (words s).map (fun w => if w = p.lit then repl else w) :=
  words_subScanG_map p hall hod repl hre hreall s.length s.length (le_refl _) s (le_refl _)

theorem reSub_id_of_not_mem (p : WordPat) (hall : p.lit.all isWordChar = true)
    (repl : List Char) (s : List Char) (h : p.lit ∉ words s) : reSub p repl s = s :=
  subScanG_id_of_not_mem p hall repl s.length s.length (le_refl _) s (le_refl _) h

/-! ### absence of the forbidden words through the substitution chains -/

theorem reSub_kill_del (p : WordPat) (hall : p.lit.all isWordChar = true) (s : List Char) :
    p.lit ∉ words (reSub p [] s) := by
  rw [words_reSub_filter p hall s]
  intro h
  have h2 := List.of_mem_filter h
  simp at h2

theorem reSub_kill_repl (p : WordPat) (hall : p.lit.all isWordChar = true)
    (hod : p.optDot = false) (repl : List Char) (hre : repl ≠ [])
    (hreall : repl.all isWordChar = true) (hner : repl ≠ p.lit) (s : List Char) :
    p.lit ∉ words (reSub p repl s) := by
  rw [words_reSub_map p hall hod repl hre hreall s]
  intro h
  rcases List.mem_map.mp h with ⟨w0, _, hmap⟩
  by_cases h0 : w0 = p.lit
  · rw [if_pos h0] at hmap
    exact hner hmap
  · rw [if_neg h0] at hmap
    exact h0 hmap

theorem reSub_abs (p : WordPat) (hall : p.lit.all isWordChar = true)
    (hod : p.optDot = false) (repl : List Char) (hre : repl ≠ [])
    (hreall : repl.all isWordChar = true) (T : List Char) (hT : repl ≠ T)
    (s : List Char) (hs : T ∉ words s) : T ∉ words (reSub p repl s) := by
  rw [words_reSub_map p hall hod repl hre hreall s]
  intro h
  rcases List.mem_map.mp h with ⟨w0, hw0, hmap⟩
  by_cases h0 : w0 = p.lit
  · rw [if_pos h0] at hmap
    exact hT hmap
  · rw [if_neg h0] at hmap
    exact hs (hmap ▸ hw0)

/-- the foldl over (pattern, replacement) pairs that `applyAbbrevs`
performs, abstracted over the pair list. -/
def foldSubs (L : List (WordPat × List Char)) (s : List Char) : List Char :=
  L.foldl (fun acc pr => reSub pr.1 pr.2 acc) s

theorem applyAbbrevs_eq_foldSubs (s : List Char) :
    applyAbbrevs s = foldSubs ABBREVS s := rfl

theorem foldSubs_abs (T : List Char) :
    ∀ (L : List (WordPat × List Char)),
      (∀ pr ∈ L, pr.1.lit.all isWordChar = true ∧ pr.1.optDot = false ∧
        pr.2 ≠ [] ∧ pr.2.all isWordChar = true) →
      (∀ pr ∈ L, pr.2 ≠ T) →
      ∀ s : List Char, T ∉ words s → T ∉ words (foldSubs L s) := by
  intro L
  induction L with
  | nil => intro _ _ s hs; exact hs
  | cons pr L' ih =>
    intro hL hT s hs
    obtain ⟨h1, h2, h3, h4⟩ := hL pr (by simp)
    exact ih (fun q hq => hL q (by simp [hq])) (fun q hq => hT q (by simp [hq]))
      (reSub pr.1 pr.2 s)
      (reSub_abs pr.1 h1 h2 pr.2 h3 h4 T (hT pr (by simp)) s hs)

theorem foldSubs_kill :
    ∀ (L : List (WordPat × List Char)) (pr0 : WordPat × List Char), pr0 ∈ L →
      (∀ pr ∈ L, pr.1.lit.all isWordChar = true ∧ pr.1.optDot = false ∧
        pr.2 ≠ [] ∧ pr.2.all isWordChar = true) →
      (∀ pr ∈ L, pr.2 ≠ pr0.1.lit) →
      ∀ s : List Char, pr0.1.lit ∉ words (foldSubs L s) := by
  intro L
  induction L with
  | nil => intro pr0 h; cases h
  | cons pr L' ih =>
    intro pr0 hmem hL hT s
    obtain ⟨h1, h2, h3, h4⟩ := hL pr (by simp)
    rcases List.mem_cons.mp hmem with he | he
    · subst he
      exact foldSubs_abs pr0.1.lit L' (fun q hq => hL q (by simp [hq]))
        (fun q hq => hT q (by simp [hq])) (reSub pr0.1 pr0.2 s)
        (reSub_kill_repl pr0.1 h1 h2 pr0.2 h3 h4 (hT pr0 (by simp)) s)
    · exact ih pr0 he (fun q hq => hL q (by simp [hq]))
        (fun q hq => hT q (by simp [hq])) (reSub pr.1 pr.2 s)

theorem applySuffixes_words_sublist :
    ∀ (ps : List WordPat), (∀ p ∈ ps, isWordChar p.hd = true) →
      ∀ s : List Char, List.Sublist (words (applySuffixes ps s)) (words s) := by
  intro ps
  induction ps with
  | nil => intro _ s; exact List.Sublist.refl _
  | cons p ps' ih =>
    intro hps s
    exact (ih (fun q hq => hps q (by simp [hq])) (reSub p [] s)).trans
      (words_reSub_sublist p (hps p (by simp)) s)

theorem applySuffixes_abs (T : List Char) (ps : List WordPat)
    (hps : ∀ p ∈ ps, isWordChar p.hd = true) (s : List Char) (hs : T ∉ words s) :
    T ∉ words (applySuffixes ps s) :=
  fun h => hs ((applySuffixes_words_sublist ps hps s).subset h)

theorem applySuffixes_kill :
    ∀ (ps : List WordPat) (p0 : WordPat), p0 ∈ ps →
      (∀ p ∈ ps, isWordChar p.hd = true) → p0.lit.all isWordChar = true →
      ∀ s : List Char, p0.lit ∉ words (applySuffixes ps s) := by
  intro ps
  induction ps with
  | nil => intro p0 h; cases h
  | cons p ps' ih =>
    intro p0 hmem hps hall0 s
    rcases List.mem_cons.mp hmem with he | he
    · subst he
      exact applySuffixes_abs p0.lit ps' (fun q hq => hps q (by simp [hq]))
        (reSub p0 [] s) (reSub_kill_del p0 hall0 s)
    · exact ih p0 he (fun q hq => hps q (by simp [hq])) hall0 (reSub p [] s)

theorem foldSubs_id :
    ∀ (L : List (WordPat × List Char)),
      (∀ pr ∈ L, pr.1.lit.all isWordChar = true) →
      ∀ s : List Char, (∀ pr ∈ L, pr.1.lit ∉ words s) → foldSubs L s = s := by
  intro L
  induction L with
  | nil => intro _ s _; rfl
  | cons pr L' ih =>
    intro hL s habs
    show foldSubs L' (reSub pr.1 pr.2 s) = s
    rw [reSub_id_of_not_mem pr.1 (hL pr (by simp)) pr.2 s (habs pr (by simp))]
    exact ih (fun q hq => hL q (by simp [hq])) s (fun q hq => habs q (by simp [hq]))

theorem applySuffixes_id :
    ∀ (ps : List WordPat) (s : List Char), (∀ p ∈ ps, reSub p [] s = s) →
      applySuffixes ps s = s := by
  intro ps
  induction ps with
  | nil => intro s _; rfl
  | cons p ps' ih =>
    intro s h
    show applySuffixes ps' (reSub p [] s) = s
    rw [h p (by simp)]
    exact ih s (fun q hq => h q (by simp [hq]))

theorem mem_applySuffixes :
    ∀ (ps : List WordPat) (s : List Char) (c : Char), c ∈ applySuffixes ps s → c ∈ s := by
  intro ps
  induction ps with
  | nil => intro s c hc; exact hc
  | cons p ps' ih =>
    intro s c hc
    have h2 := ih (reSub p [] s) c hc
    rcases mem_subScanG (matchLen p) [] s.length false s c h2 with h | h
    · exact h
    · cases h

theorem mem_foldSubs :
    ∀ (L : List (WordPat × List Char)) (s : List Char) (c : Char),
      c ∈ foldSubs L s → c ∈ s ∨ ∃ pr ∈ L, c ∈ pr.2 := by
  intro L
  induction L with
  | nil => intro s c hc; exact Or.inl hc
  | cons pr L' ih =>
    intro s c hc
    rcases ih (reSub pr.1 pr.2 s) c hc with h | ⟨q, hq, hcq⟩
    · rcases mem_subScanG (matchLen pr.1) pr.2 s.length false s c h with h2 | h2
      · exact Or.inl h2
      · exact Or.inr ⟨pr, by simp, h2⟩
    · exact Or.inr ⟨q, by simp [hq], hcq⟩

theorem mem_pyReplace (a : Char) (r l : List Char) (c : Char) (hc : c ∈ pyReplace a r l) :
    c ∈ l ∨ c ∈ r := by
  unfold pyReplace at hc
  rcases List.mem_flatten.mp hc with ⟨w, hw, hcw⟩
  rcases List.mem_map.mp hw with ⟨c0, hc0, hmap⟩
  by_cases h : c0 = a
  · rw [if_pos h] at hmap
    subst hmap
    exact Or.inr hcw
  · rw [if_neg h] at hmap
    subst hmap
    have h2 := List.mem_singleton.mp hcw
    subst h2
    exact Or.inl hc0

theorem mem_pyStrip (s : List Char) (c : Char) (hc : c ∈ pyStrip s) : c ∈ s := by
  unfold pyStrip at hc
  rw [List.mem_reverse] at hc
  have h2 : c ∈ (s.dropWhile pySpace).reverse :=
    ((List.dropWhile_suffix pySpace).sublist).subset hc
  rw [List.mem_reverse] at h2
  exact ((List.dropWhile_suffix pySpace).sublist).subset h2

/-! ### the later pipeline stages preserve the word structure -/

theorem pySpace_nonword (c : Char) (h : pySpace c = true) : isWordChar c = false := by
  unfold pySpace at h
  simp only [Bool.or_eq_true, decide_eq_true_eq] at h
  rcases h with ((((h | h) | h) | h) | h) | h <;> subst h <;> decide

theorem collapseWs_cons (b : Bool) (c : Char) (s : List Char) :
    collapseWs b (c :: s) =
      if pySpace c then
        if b then collapseWs true s else ' ' :: collapseWs true s
      else c :: collapseWs false s := rfl

theorem wordsAux_map_eq (g : Char → Char) :
    ∀ s : List Char, (∀ c ∈ s, (isWordChar c = true → g c = c) ∧
      (isWordChar c = false → isWordChar (g c) = false)) →
    ∀ acc : List Char, wordsAux acc (s.map g) = wordsAux acc s := by
  intro s
  induction s with
  | nil => intro _ acc; rfl
  | cons c s' ih =>
    intro hg acc
    rw [List.map_cons]
    by_cases hc : isWordChar c = true
    · rw [wordsAux_cons, (hg c (by simp)).1 hc, if_pos hc, wordsAux_cons acc c s',
        if_pos hc]
      exact ih (fun d hd => hg d (by simp [hd])) (c :: acc)
    · have hcf : isWordChar c = false := by rwa [Bool.not_eq_true] at hc
      have hgf : isWordChar (g c) = false := (hg c (by simp)).2 hcf
      have hgc : ¬(isWordChar (g c) = true) := by simp [hgf]
      rw [wordsAux_cons, if_neg hgc, wordsAux_cons acc c s', if_neg hc]
      by_cases hacc : acc = []
      · rw [if_pos hacc, if_pos hacc]
        exact ih (fun d hd => hg d (by simp [hd])) []
      · rw [if_neg hacc, if_neg hacc, ih (fun d hd => hg d (by simp [hd])) []]

theorem wordsAux_collapseWs :
    ∀ (s : List Char) (b : Bool) (acc : List Char), (b = true → acc = []) →
      wordsAux acc (collapseWs b s) = wordsAux acc s := by
  intro s
  induction s with
  | nil => intro b acc _; rfl
  | cons c s' ih =>
    intro b acc hba
    by_cases hsp : pySpace c = true
    · have hcw : isWordChar c = false := pySpace_nonword c hsp
      have hcw' : ¬(isWordChar c = true) := by simp [hcw]
      cases b with
      | true =>
        have hacc : acc = [] := hba rfl
        subst hacc
        rw [collapseWs_cons, if_pos hsp, if_pos rfl, ih true [] (fun _ => rfl),
          wordsAux_cons [] c s', if_neg hcw', if_pos rfl]
      | false =>
        rw [collapseWs_cons, if_pos hsp, if_neg (by simp)]
        have hspw : ¬(isWordChar ' ' = true) := by decide
        rw [wordsAux_cons, if_neg hspw, wordsAux_cons acc c s', if_neg hcw']
        by_cases hacc : acc = []
        · rw [if_pos hacc, if_pos hacc, ih true [] (fun _ => rfl)]
        · rw [if_neg hacc, if_neg hacc, ih true [] (fun _ => rfl)]
    · have hns : pySpace c = false := by rwa [Bool.not_eq_true] at hsp
      rw [collapseWs_cons, if_neg hsp]
      by_cases hcw : isWordChar c = true
      · rw [wordsAux_cons, if_pos hcw, wordsAux_cons acc c s', if_pos hcw]
        exact ih false (c :: acc) (fun h => nomatch h)
      · rw [wordsAux_cons, if_neg hcw, wordsAux_cons acc c s', if_neg hcw]
        by_cases hacc : acc = []
        · rw [if_pos hacc, if_pos hacc, ih false [] (fun h => nomatch h)]
        · rw [if_neg hacc, if_neg hacc, ih false [] (fun h => nomatch h)]

theorem words_collapseWs (l : List Char) : words (collapseWs false l) = words l :=
  wordsAux_collapseWs l false [] (fun h => nomatch h)

theorem words_dropWhile_space (s : List Char) :
    words (s.dropWhile pySpace) = words s := by
  induction s with
  | nil => rfl
  | cons c s' ih =>
    rw [List.dropWhile_cons]
    by_cases hsp : pySpace c = true
    · rw [if_pos hsp, ih, words_cons_nonword c s' (pySpace_nonword c hsp)]
    · rw [if_neg hsp]

theorem words_pyStrip (s : List Char) : words (pyStrip s) = words s := by
  have hdecomp : s.dropWhile pySpace =
      ((s.dropWhile pySpace).reverse.dropWhile pySpace).reverse ++
        ((s.dropWhile pySpace).reverse.takeWhile pySpace).reverse := by
    rw [← List.reverse_append, List.takeWhile_append_dropWhile, List.reverse_reverse]
  have htail : ∀ c ∈ ((s.dropWhile pySpace).reverse.takeWhile pySpace).reverse,
      isWordChar c = false := by
    intro c hc
    rw [List.mem_reverse] at hc
    exact pySpace_nonword c (List.mem_takeWhile_imp hc)
  have h1 : words (((s.dropWhile pySpace).reverse.dropWhile pySpace).reverse) =
      words (s.dropWhile pySpace) := by
    conv_rhs => rw [hdecomp]
    exact (words_append_nonword _ _ htail).symm
  show words (((s.dropWhile pySpace).reverse.dropWhile pySpace).reverse) = words s
  rw [h1, words_dropWhile_space]

/-! ### the alphabet and space structure of the pipeline output -/

/-- is `c` a capital letter or a digit? (the only word characters the
pipeline can output). -/
def wordGood (c : Char) : Bool :=
  (decide ('A' ≤ c) && decide (c ≤ 'Z')) || (decide ('0' ≤ c) && decide (c ≤ '9'))

/-- is `c` a capital letter, a digit or a space? -/
def goodChar (c : Char) : Bool := wordGood c || c = ' '

theorem mem_punctToSpace (x : List Char) (c : Char) (hc : c ∈ punctToSpace x) :
    wordGood c = true ∨ pySpace c = true := by
  unfold punctToSpace at hc
  rcases List.mem_map.mp hc with ⟨c0, _, hmap⟩
  by_cases h : ((decide ('A' ≤ c0) && decide (c0 ≤ 'Z')) ||
      (decide ('0' ≤ c0) && decide (c0 ≤ '9')) || pySpace c0) = true
  · rw [if_pos h] at hmap
    subst hmap
    simp only [Bool.or_eq_true] at h
    rcases h with (h1 | h1) | hsp
    · left
      unfold wordGood
      rw [h1]
      rfl
    · left
      unfold wordGood
      rw [h1]
      simp
    · right; exact hsp
  · rw [if_neg h] at hmap
    subst hmap
    right; decide

theorem mem_collapseWs (s : List Char) :
    ∀ (b : Bool) (c : Char), c ∈ collapseWs b s →
      c = ' ' ∨ (c ∈ s ∧ pySpace c = false) := by
  induction s with
  | nil => intro b c hc; cases hc
  | cons d s' ih =>
    intro b c hc
    rw [collapseWs_cons] at hc
    by_cases hsp : pySpace d = true
    · rw [if_pos hsp] at hc
      by_cases hb : b = true
      · rw [if_pos hb] at hc
        rcases ih true c hc with h | ⟨h1, h2⟩
        · exact Or.inl h
        · exact Or.inr ⟨by simp [h1], h2⟩
      · rw [if_neg hb] at hc
        rcases List.mem_cons.mp hc with h | h
        · exact Or.inl h
        · rcases ih true c h with h2 | ⟨h3, h4⟩
          · exact Or.inl h2
          · exact Or.inr ⟨by simp [h3], h4⟩
    · have hspf : pySpace d = false := by rwa [Bool.not_eq_true] at hsp
      rw [if_neg hsp] at hc
      rcases List.mem_cons.mp hc with h | h
      · subst h
        exact Or.inr ⟨by simp, hspf⟩
      · rcases ih false c h with h2 | ⟨h3, h4⟩
        · exact Or.inl h2
        · exact Or.inr ⟨by simp [h3], h4⟩

theorem goodChar_space (c : Char) (hg : goodChar c = true) (hs : pySpace c = true) :
    c = ' ' := by
  unfold pySpace at hs
  simp only [Bool.or_eq_true, decide_eq_true_eq] at hs
  rcases hs with ((((h | h) | h) | h) | h) | h <;> subst h <;> revert hg <;> decide

theorem toNat_char_ofNat_valid (n : Nat) (h : n < 55296) : (Char.ofNat n).toNat = n := by
  unfold Char.ofNat
  rw [dif_pos (Or.inl h)]
  rfl

theorem char_le_iff_toNat (a b : Char) : a ≤ b ↔ a.toNat ≤ b.toNat := by
  rw [Char.le_def, UInt32.le_def, BitVec.le_def]
  exact Iff.rfl

theorem toUpper_good (c : Char) (h1 : 'a' ≤ c) (h2 : c ≤ 'z') :
    wordGood (Char.toUpper c) = true := by
  have ha : ('a').toNat = 97 := rfl
  have hz : ('z').toNat = 122 := rfl
  have hn1 := (char_le_iff_toNat 'a' c).mp h1
  have hn2 := (char_le_iff_toNat c 'z').mp h2
  rw [ha] at hn1
  rw [hz] at hn2
  have htu : Char.toUpper c = Char.ofNat (c.toNat - 32) := by
    show (if c.toNat ≥ 97 ∧ c.toNat ≤ 122 then Char.ofNat (c.toNat - 32) else c) = _
    rw [if_pos ⟨hn1, hn2⟩]
  have hofn : (Char.ofNat (c.toNat - 32)).toNat = c.toNat - 32 :=
    toNat_char_ofNat_valid _ (by omega)
  rw [htu]
  have hA : 'A' ≤ Char.ofNat (c.toNat - 32) := by
    rw [char_le_iff_toNat, hofn]
    have h3 : ('A').toNat = 65 := rfl
    omega
  have hZ : Char.ofNat (c.toNat - 32) ≤ 'Z' := by
    rw [char_le_iff_toNat, hofn]
    have h3 : ('Z').toNat = 90 := rfl
    omega
  unfold wordGood
  simp [hA, hZ]

theorem pyUpper_word_good (c0 : Char) (h0 : c0 ≠ '_')
    (hw : isWordChar (pyUpper c0) = true) : wordGood (pyUpper c0) = true := by
  unfold pyUpper at hw ⊢
  by_cases hlow : (decide ('a' ≤ c0) && decide (c0 ≤ 'z')) = true
  · rw [if_pos hlow] at hw ⊢
    simp only [Bool.and_eq_true, decide_eq_true_eq] at hlow
    exact toUpper_good c0 hlow.1 hlow.2
  · rw [if_neg hlow] at hw ⊢
    unfold isWordChar at hw
    simp only [Bool.or_eq_true, Bool.and_eq_true, decide_eq_true_eq] at hw
    unfold wordGood
    simp only [Bool.or_eq_true, Bool.and_eq_true, decide_eq_true_eq]
    rcases hw with ((h | h) | h) | h
    · exact Or.inl h
    · exact absurd (by simp [h.1, h.2] : (decide ('a' ≤ c0) && decide (c0 ≤ 'z')) = true) hlow
    · exact Or.inr h
    · exact absurd h h0

theorem pyUpper_id_of_good (c : Char) (h : goodChar c = true) : pyUpper c = c := by
  unfold pyUpper
  rw [if_neg]
  intro hlow
  simp only [Bool.and_eq_true, decide_eq_true_eq] at hlow
  unfold goodChar wordGood at h
  simp only [Bool.or_eq_true, Bool.and_eq_true, decide_eq_true_eq] at h
  rcases h with (⟨h1, h2⟩ | ⟨h1, h2⟩) | h1
  · have h3 := lt_of_le_of_lt h2 (by decide : 'Z' < 'a')
    exact absurd hlow.1 (not_le.mpr h3)
  · have h3 := lt_of_le_of_lt h2 (by decide : '9' < 'a')
    exact absurd hlow.1 (not_le.mpr h3)
  · subst h1
    exact absurd hlow.1 (by decide)

theorem map_id_of_forall (g : Char → Char) (l : List Char) (h : ∀ c ∈ l, g c = c) :
    l.map g = l := by
  conv_rhs => rw [← List.map_id l]
  exact List.map_congr_left h

theorem pyReplace_id (a : Char) (r : List Char) :
    ∀ l : List Char, (∀ c ∈ l, c ≠ a) → pyReplace a r l = l := by
  intro l
  induction l with
  | nil => intro _; rfl
  | cons c t ih =>
    intro h
    unfold pyReplace
    rw [List.map_cons, List.flatten_cons, if_neg (h c (by simp)), List.singleton_append]
    congr 1
    exact ih (fun d hd => h d (by simp [hd]))

theorem punctToSpace_id_of_good (l : List Char) (h : ∀ c ∈ l, goodChar c = true) :
    punctToSpace l = l := by
  unfold punctToSpace
  conv_rhs => rw [← List.map_id l]
  apply List.map_congr_left
  intro c hc
  have hg := h c hc
  unfold goodChar wordGood at hg
  have hcond : ((decide ('A' ≤ c) && decide (c ≤ 'Z')) ||
      (decide ('0' ≤ c) && decide (c ≤ '9')) || pySpace c) = true := by
    simp only [Bool.or_eq_true, decide_eq_true_eq] at hg ⊢
    rcases hg with (h1 | h1) | h1
    · exact Or.inl (Or.inl h1)
    · exact Or.inl (Or.inr h1)
    · subst h1
      exact Or.inr (by decide)
  rw [if_pos hcond]
  rfl

theorem dropWhile_dropWhile_self (p : Char → Bool) :
    ∀ l : List Char, (l.dropWhile p).dropWhile p = l.dropWhile p := by
  intro l
  induction l with
  | nil => rfl
  | cons a l' ih =>
    rw [List.dropWhile_cons]
    by_cases ha : p a = true
    · rw [if_pos ha]
      exact ih
    · rw [if_neg ha, List.dropWhile_cons, if_neg ha]

theorem strip_head_keep (p : Char → Bool) (l : List Char) (hl : l.dropWhile p = l) :
    ((l.reverse.dropWhile p).reverse).dropWhile p = (l.reverse.dropWhile p).reverse := by
  cases l with
  | nil => rfl
  | cons c t =>
    have hc : p c = false := by
      by_cases h : p c = true
      · exfalso
        rw [List.dropWhile_cons, if_pos h] at hl
        have hlen : (t.dropWhile p).length ≤ t.length :=
          ((List.dropWhile_suffix p).sublist).length_le
        rw [hl] at hlen
        simp only [List.length_cons] at hlen
        omega
      · rwa [Bool.not_eq_true] at h
    have hcn : ¬(p c = true) := by simp [hc]
    rw [List.reverse_cons, List.dropWhile_append]
    by_cases he : (t.reverse.dropWhile p).isEmpty = true
    · rw [if_pos he]
      have h1 : [c].dropWhile p = [c] := by
        rw [List.dropWhile_cons, if_neg hcn]
      rw [h1, List.reverse_singleton, h1]
    · rw [if_neg he, List.reverse_append, List.reverse_singleton, List.singleton_append,
        List.dropWhile_cons, if_neg hcn]

theorem pyStrip_idem (s : List Char) : pyStrip (pyStrip s) = pyStrip s := by
  unfold pyStrip
  rw [strip_head_keep pySpace (s.dropWhile pySpace) (dropWhile_dropWhile_self pySpace s),
    List.reverse_reverse, dropWhile_dropWhile_self]

/-- adjacent characters are never both whitespace. -/
def spaceR (a b : Char) : Prop := ¬(pySpace a = true ∧ pySpace b = true)

theorem collapseWs_head_not_space (s : List Char) :
    ∀ c t, collapseWs true s = c :: t → pySpace c = false := by
  induction s with
  | nil => intro c t h; cases h
  | cons d s' ih =>
    intro c t h
    rw [collapseWs_cons] at h
    by_cases hsp : pySpace d = true
    · rw [if_pos hsp, if_pos rfl] at h
      exact ih c t h
    · rw [if_neg hsp] at h
      simp only [List.cons.injEq] at h
      rw [← h.1]
      rwa [Bool.not_eq_true] at hsp

theorem chain_spaceR_collapseWs (s : List Char) :
    ∀ b, List.Chain' spaceR (collapseWs b s) := by
  induction s with
  | nil => intro b; exact List.chain'_nil
  | cons d s' ih =>
    intro b
    rw [collapseWs_cons]
    by_cases hsp : pySpace d = true
    · rw [if_pos hsp]
      by_cases hb : b = true
      · rw [if_pos hb]
        exact ih true
      · rw [if_neg hb]
        have hch := ih true
        cases hct : collapseWs true s' with
        | nil => exact List.chain'_singleton _
        | cons e t =>
          rw [hct] at hch
          refine List.chain'_cons.mpr ⟨?_, hch⟩
          intro hand
          have hns := collapseWs_head_not_space s' e t hct
          exact Bool.noConfusion (hns ▸ hand.2)
    · have hspf : pySpace d = false := by rwa [Bool.not_eq_true] at hsp
      rw [if_neg hsp]
      have hch := ih false
      cases hct : collapseWs false s' with
      | nil => exact List.chain'_singleton _
      | cons e t =>
        rw [hct] at hch
        refine List.chain'_cons.mpr ⟨?_, hch⟩
        intro hand
        exact Bool.noConfusion (hspf ▸ hand.1)

theorem chain_spaceR_pyStrip (l : List Char) (h : List.Chain' spaceR l) :
    List.Chain' spaceR (pyStrip l) := by
  have hsymm : ∀ a b : Char, spaceR a b → flip spaceR a b :=
    fun a b hab hp => hab ⟨hp.2, hp.1⟩
  have h1 : List.Chain' spaceR (l.dropWhile pySpace) :=
    h.suffix (List.dropWhile_suffix pySpace)
  have h2 : List.Chain' spaceR (l.dropWhile pySpace).reverse :=
    List.chain'_reverse.mpr (List.Chain'.imp hsymm h1)
  have h3 : List.Chain' spaceR ((l.dropWhile pySpace).reverse.dropWhile pySpace) :=
    h2.suffix (List.dropWhile_suffix pySpace)
  exact List.chain'_reverse.mpr (List.Chain'.imp hsymm h3)

theorem collapseWs_true_eq_false_head (s : List Char)
    (hs : ∀ c t, s = c :: t → pySpace c = false) :
    collapseWs true s = collapseWs false s := by
  cases s with
  | nil => rfl
  | cons c t =>
    have hc : pySpace c = false := hs c t rfl
    have hcn : ¬(pySpace c = true) := by simp [hc]
    rw [collapseWs_cons, collapseWs_cons, if_neg hcn, if_neg hcn]

theorem collapseWs_id :
    ∀ l : List Char, List.Chain' spaceR l →
      (∀ c ∈ l, pySpace c = true → c = ' ') → collapseWs false l = l := by
  intro l
  induction l with
  | nil => intro _ _; rfl
  | cons c t ih =>
    intro hch hsp
    rw [collapseWs_cons]
    by_cases h : pySpace c = true
    · rw [if_pos h, if_neg (by simp)]
      have hc : c = ' ' := hsp c (by simp) h
      subst hc
      congr 1
      have hhead : ∀ d t', t = d :: t' → pySpace d = false := by
        intro d t' ht'
        subst ht'
        rcases List.chain'_cons.mp hch with ⟨hr, _⟩
        by_cases hd : pySpace d = true
        · exact absurd ⟨h, hd⟩ hr
        · rwa [Bool.not_eq_true] at hd
      rw [collapseWs_true_eq_false_head t hhead]
      exact ih hch.tail (fun d hd hsp2 => hsp d (by simp [hd]) hsp2)
    · rw [if_neg h]
      congr 1
      exact ih hch.tail (fun d hd hsp2 => hsp d (by simp [hd]) hsp2)

theorem words_punctToSpace (l : List Char)
    (hgood : ∀ c ∈ l, isWordChar c = true → wordGood c = true) :
    words (punctToSpace l) = words l := by
  unfold punctToSpace
  have hfun : ∀ c ∈ l, (isWordChar c = true →
      (if (decide ('A' ≤ c) && decide (c ≤ 'Z')) ||
        (decide ('0' ≤ c) && decide (c ≤ '9')) || pySpace c then c else ' ') = c) ∧
      (isWordChar c = false →
        isWordChar (if (decide ('A' ≤ c) && decide (c ≤ 'Z')) ||
          (decide ('0' ≤ c) && decide (c ≤ '9')) || pySpace c then c else ' ') = false) := by
    intro c hc
    constructor
    · intro hcw
      have hg := hgood c hc hcw
      unfold wordGood at hg
      have hcond : ((decide ('A' ≤ c) && decide (c ≤ 'Z')) ||
          (decide ('0' ≤ c) && decide (c ≤ '9')) || pySpace c) = true := by
        simp only [Bool.or_eq_true] at hg ⊢
        rcases hg with h1 | h1
        · exact Or.inl (Or.inl h1)
        · exact Or.inl (Or.inr h1)
      rw [if_pos hcond]
    · intro hcw
      by_cases hcond : ((decide ('A' ≤ c) && decide (c ≤ 'Z')) ||
          (decide ('0' ≤ c) && decide (c ≤ '9')) || pySpace c) = true
      · rw [if_pos hcond]
        exact hcw
      · rw [if_neg hcond]
        decide
  exact wordsAux_map_eq _ l hfun []

/-- the `let`-free form of `cleanStr1`. -/
theorem cleanStr1_eq (s : List Char) : cleanStr1 s =
    pyStrip (collapseWs false (punctToSpace (suffixStage1 (applyAbbrevs
      (pyReplace apoChar [] (pyReplace '-' [' '] (pyReplace '&'
        [' ', 'A', 'N', 'D', ' '] (pyStrip (s.map pyUpper))))))))) := rfl

theorem cleanStr1_alphabet (s : List Char) :
    ∀ c ∈ cleanStr1 s, goodChar c = true := by
  intro c hc
  rw [cleanStr1_eq] at hc
  have h1 := mem_pyStrip _ c hc
  rcases mem_collapseWs _ false c h1 with h | ⟨h2, h3⟩
  · subst h; decide
  · rcases mem_punctToSpace _ c h2 with h4 | h4
    · unfold goodChar
      rw [h4]
      rfl
    · rw [h4] at h3
      exact Bool.noConfusion h3

theorem n6_word_good (s : List Char) (hund : '_' ∉ s) :
    ∀ c ∈ suffixStage1 (applyAbbrevs (pyReplace apoChar [] (pyReplace '-' [' ']
      (pyReplace '&' [' ', 'A', 'N', 'D', ' '] (pyStrip (s.map pyUpper)))))),
      isWordChar c = true → wordGood c = true := by
  intro c hc hw
  unfold suffixStage1 at hc
  have h1 := mem_applySuffixes SUFFIXES_B _ c hc
  have h2 : c ∈ applySuffixes SUFFIXES_A (applyAbbrevs (pyReplace apoChar []
      (pyReplace '-' [' '] (pyReplace '&' [' ', 'A', 'N', 'D', ' ']
        (pyStrip (s.map pyUpper)))))) := by
    rcases mem_subScanG (matchLen pSA) [] _ false _ c h1 with h | h
    · exact h
    · cases h
  have h3 := mem_applySuffixes SUFFIXES_A _ c h2
  rcases mem_foldSubs ABBREVS _ c h3 with h4 | ⟨pr, hpr, hcr⟩
  · rcases mem_pyReplace apoChar [] _ c h4 with h5 | h5
    · rcases mem_pyReplace '-' [' '] _ c h5 with h6 | h6
      · rcases mem_pyReplace '&' [' ', 'A', 'N', 'D', ' '] _ c h6 with h7 | h7
        · have h8 := mem_pyStrip _ c h7
          rcases List.mem_map.mp h8 with ⟨c0, hc0, hmap⟩
          subst hmap
          exact pyUpper_word_good c0 (fun he => hund (he ▸ hc0)) hw
        · have hand : ∀ d ∈ [' ', 'A', 'N', 'D', ' '], isWordChar d = true →
              wordGood d = true := by decide
          exact hand c h7 hw
      · have h8 := List.mem_singleton.mp h6
        subst h8
        exact absurd hw (by decide)
    · cases h5
  · have habb : ∀ pr0 ∈ ABBREVS, ∀ d ∈ pr0.2, wordGood d = true := by decide
    exact habb pr hpr c hcr

theorem words_cleanStr1 (s : List Char) (hund : '_' ∉ s) :
    words (cleanStr1 s) = words (suffixStage1 (applyAbbrevs (pyReplace apoChar []
      (pyReplace '-' [' '] (pyReplace '&' [' ', 'A', 'N', 'D', ' ']
        (pyStrip (s.map pyUpper))))))) := by
  rw [cleanStr1_eq, words_pyStrip, words_collapseWs,
    words_punctToSpace _ (n6_word_good s hund)]

theorem abbrev_lit_abs (pr : WordPat × List Char) (hpr : pr ∈ ABBREVS) (x : List Char) :
    pr.1.lit ∉ words (suffixStage1 (applyAbbrevs x)) := by
  have hT : ∀ pr0 ∈ ABBREVS, ∀ q ∈ ABBREVS, q.2 ≠ pr0.1.lit := by decide
  have h5 : pr.1.lit ∉ words (applyAbbrevs x) := by
    rw [applyAbbrevs_eq_foldSubs]
    exact foldSubs_kill ABBREVS pr hpr (by decide) (hT pr hpr) x
  unfold suffixStage1
  have hA : pr.1.lit ∉ words (applySuffixes SUFFIXES_A (applyAbbrevs x)) :=
    applySuffixes_abs pr.1.lit SUFFIXES_A (by decide) _ h5
  have hS : pr.1.lit ∉ words (reSub pSA [] (applySuffixes SUFFIXES_A (applyAbbrevs x))) :=
    fun hmem => hA ((words_reSub_sublist pSA (by decide) _).subset hmem)
  exact applySuffixes_abs pr.1.lit SUFFIXES_B (by decide) _ hS

theorem suffixA_lit_abs (p : WordPat) (hp : p ∈ SUFFIXES_A)
    (hall : p.lit.all isWordChar = true) (y : List Char) :
    p.lit ∉ words (suffixStage1 y) := by
  unfold suffixStage1
  have hA : p.lit ∉ words (applySuffixes SUFFIXES_A y) :=
    applySuffixes_kill SUFFIXES_A p hp (by decide) hall y
  have hS : p.lit ∉ words (reSub pSA [] (applySuffixes SUFFIXES_A y)) :=
    fun hmem => hA ((words_reSub_sublist pSA (by decide) _).subset hmem)
  exact applySuffixes_abs p.lit SUFFIXES_B (by decide) _ hS

theorem suffixB_lit_abs (p : WordPat) (hp : p ∈ SUFFIXES_B)
    (hall : p.lit.all isWordChar = true) (y : List Char) :
    p.lit ∉ words (applySuffixes SUFFIXES_B y) :=
  applySuffixes_kill SUFFIXES_B p hp (by decide) hall y

theorem strip_collapse_chain (x : List Char) :
    List.Chain' spaceR (pyStrip (collapseWs false x)) :=
  chain_spaceR_pyStrip (collapseWs false x) (chain_spaceR_collapseWs x false)

theorem strip_collapse_collapse (x : List Char)
    (hsp : ∀ c ∈ pyStrip (collapseWs false x), pySpace c = true → c = ' ') :
    collapseWs false (pyStrip (collapseWs false x)) = pyStrip (collapseWs false x) :=
  collapseWs_id (pyStrip (collapseWs false x))
    (chain_spaceR_pyStrip (collapseWs false x) (chain_spaceR_collapseWs x false)) hsp

theorem cleanStr1_strip (s : List Char) : pyStrip (cleanStr1 s) = cleanStr1 s :=
  (congrArg pyStrip (cleanStr1_eq s)).trans
    ((pyStrip_idem (collapseWs false (punctToSpace (suffixStage1 (applyAbbrevs
      (pyReplace apoChar [] (pyReplace '-' [' '] (pyReplace '&'
        [' ', 'A', 'N', 'D', ' '] (pyStrip (s.map pyUpper)))))))))).trans
      (cleanStr1_eq s).symm)

set_option maxHeartbeats 2000000 in
theorem cleanStr1_idem (s : List Char) (hund : '_' ∉ s) :
    cleanStr1 (cleanStr1 s) = cleanStr1 s := by
  have hgood : ∀ c ∈ cleanStr1 s, goodChar c = true := cleanStr1_alphabet s
  have hnochar : ∀ a : Char, goodChar a = false → a ∉ cleanStr1 s := by
    intro a hga ha
    rw [hgood a ha] at hga
    exact Bool.noConfusion hga
  have hupper : (cleanStr1 s).map pyUpper = cleanStr1 s :=
    map_id_of_forall _ _ (fun c hc => pyUpper_id_of_good c (hgood c hc))
  have hstrip : pyStrip (cleanStr1 s) = cleanStr1 s := cleanStr1_strip s
  have hamp : pyReplace '&' [' ', 'A', 'N', 'D', ' '] (cleanStr1 s) = cleanStr1 s :=
    pyReplace_id _ _ _ (fun c hc he => hnochar '&' (by decide) (he ▸ hc))
  have hdash : pyReplace '-' [' '] (cleanStr1 s) = cleanStr1 s :=
    pyReplace_id _ _ _ (fun c hc he => hnochar '-' (by decide) (he ▸ hc))
  have hapo : pyReplace apoChar [] (cleanStr1 s) = cleanStr1 s :=
    pyReplace_id _ _ _ (fun c hc he => hnochar apoChar (by decide) (he ▸ hc))
  have hwords := words_cleanStr1 s hund
  have habb : ∀ pr ∈ ABBREVS, pr.1.lit ∉ words (cleanStr1 s) := by
    intro pr hpr
    rw [hwords]
    exact abbrev_lit_abs pr hpr _
  have habbrevs : applyAbbrevs (cleanStr1 s) = cleanStr1 s := by
    rw [applyAbbrevs_eq_foldSubs]
    exact foldSubs_id ABBREVS (by decide) _ habb
  have hdot : '.' ∉ cleanStr1 s := hnochar '.' (by decide)
  have hsufA : applySuffixes SUFFIXES_A (cleanStr1 s) = cleanStr1 s := by
    apply applySuffixes_id
    intro p hp
    by_cases hall : p.lit.all isWordChar = true
    · apply reSub_id_of_not_mem p hall
      rw [hwords]
      exact suffixA_lit_abs p hp hall _
    · have hdotin : '.' ∈ p.lit := by
        have hor : ∀ q ∈ SUFFIXES_A, q.lit.all isWordChar = true ∨ '.' ∈ q.lit := by
          decide
        rcases hor p hp with h | h
        · exact absurd h hall
        · exact h
      exact reSub_id_of_missing p [] _ '.' hdotin hdot
  have hsa : reSub pSA [] (cleanStr1 s) = cleanStr1 s :=
    reSub_id_of_missing pSA [] _ '.' (by decide) hdot
  have hsufB : applySuffixes SUFFIXES_B (cleanStr1 s) = cleanStr1 s := by
    apply applySuffixes_id
    intro p hp
    have hall : p.lit.all isWordChar = true := by
      have hB : ∀ q ∈ SUFFIXES_B, q.lit.all isWordChar = true := by decide
      exact hB p hp
    apply reSub_id_of_not_mem p hall
    rw [hwords]
    exact suffixB_lit_abs p hp hall _
  have hspaces : ∀ c ∈ cleanStr1 s, pySpace c = true → c = ' ' :=
    fun c hc hs2 => goodChar_space c (hgood c hc) hs2
  have hsp2 : ∀ c ∈ pyStrip (collapseWs false (punctToSpace (suffixStage1 (applyAbbrevs
      (pyReplace apoChar [] (pyReplace '-' [' '] (pyReplace '&' [' ', 'A', 'N', 'D', ' ']
        (pyStrip (s.map pyUpper))))))))), pySpace c = true → c = ' ' := by
    intro c hc hspc
    exact hspaces c (by rw [cleanStr1_eq]; exact hc) hspc
  have hcoll : collapseWs false (cleanStr1 s) = cleanStr1 s :=
    (congrArg (collapseWs false) (cleanStr1_eq s)).trans
      ((strip_collapse_collapse (punctToSpace (suffixStage1 (applyAbbrevs
        (pyReplace apoChar [] (pyReplace '-' [' '] (pyReplace '&'
          [' ', 'A', 'N', 'D', ' '] (pyStrip (s.map pyUpper)))))))) hsp2).trans
        (cleanStr1_eq s).symm)
  have hpunct : punctToSpace (cleanStr1 s) = cleanStr1 s :=
    punctToSpace_id_of_good _ hgood
  conv_lhs => rw [cleanStr1_eq (cleanStr1 s)]
  rw [hupper, hstrip, hamp, hdash, hapo, habbrevs]
  unfold suffixStage1
  rw [hsufA, hsa, hsufB, hpunct, hcoll, hstrip]

/-- C2 (counterexample): `clean_company_name` is not idempotent.  On the
input "A_CO" one application yields "A CO": the underscore is a `\b` word
character, so no suffix pattern can match inside the single word A_CO, but
the punctuation stage `[^A-Z0-9\s]` then replaces the underscore by a
space.  A second application now sees the exposed word CO and strips it as
a company suffix, yielding "A". -/
theorem clean_company_name_not_idempotent :
    clean_company_name (PyVal.vStr (clean_company_name (PyVal.vStr "A_CO"))) ≠
      clean_company_name (PyVal.vStr "A_CO") := by decide

/-- C2 (amended): `clean_company_name` is idempotent on every ASCII input
string that contains no underscore: applying the function to its own
output returns the output unchanged.  The claim is restricted to inputs
whose characters both lie below code point 128 and differ from the
underscore, because a character breaks idempotence exactly when it is a
word character for the regexes' `\b` boundaries (Python's `\w` is
Unicode-aware) and yet is erased by the punctuation stage `[^A-Z0-9\s]`:
inside ASCII the underscore is the only such character (see
`clean_company_name_not_idempotent`), while outside ASCII any accented
letter behaves the same way (for example "AéCO" cleans to "A CO" and then
to "A"), and there this ASCII embedding no longer tracks the program. -/
theorem clean_company_name_idempotent_ascii_no_underscore (s : String)
    (hascii : ∀ c ∈ s.data, c.toNat < 128)
    (h : '_' ∉ s.data) :
    clean_company_name (PyVal.vStr (clean_company_name (PyVal.vStr s))) =
      clean_company_name (PyVal.vStr s) := by
  have hv : ∀ t : String, clean_company_name (PyVal.vStr t) =
      String.mk (cleanStr1 t.data) := fun t => rfl
  have hv2 : ∀ l : List Char, clean_company_name (PyVal.vStr (String.mk l)) =
      String.mk (cleanStr1 l) := fun l => rfl
  rw [hv s, hv2 (cleanStr1 s.data), cleanStr1_idem s.data h]

theorem clean_company_name_idempotent_ascii_no_underscore_witness :
    (∀ c ∈ ("Acme Widget Corp.").data, c.toNat < 128) ∧
      '_' ∉ ("Acme Widget Corp.").data ∧
      clean_company_name (PyVal.vStr (clean_company_name
        (PyVal.vStr "Acme Widget Corp."))) =
        clean_company_name (PyVal.vStr "Acme Widget Corp.") :=
  ⟨by decide, by decide,
    clean_company_name_idempotent_ascii_no_underscore "Acme Widget Corp."
      (by decide) (by decide)⟩

theorem perform_matching_tier_contract_witness :
    (∀ a b : String, (fun _ _ => (90 : Nat)) a b ≤ 100) ∧
    (perform_matching (fun _ _ => (90 : Nat)) ["ACME"] [⟨"Acme Corp", "ACME"⟩, ⟨"Zeta", "ZETA"⟩]
        "Tier 1" (some 90)).1 =
      [⟨"Acme Corp", "ACME", "ACME", MatchType.strict, 100, "Tier 1"⟩] := by
  refine ⟨fun a b => by norm_num, ?_⟩
  have h := (perform_matching_tier_contract (fun _ _ => (90 : Nat)) ["ACME"]
    [⟨"Acme Corp", "ACME"⟩, ⟨"Zeta", "ZETA"⟩] "Tier 1" (some 90)
    (fun a b => by norm_num)).1
  rw [h]
  decide

end PatentMatch
